import Mathlib

set_option maxRecDepth 10000

/-!
# Verification of the riemann-ether core codecs

Shallow embedding of the `ether` Python package (ABI codec, RLP codec,
transaction model, RPC response handling, WebSocket client state) together
with proofs and refutations of the specification's claims.

Conventions:
* Python `bytes` values are embedded as `List Nat`, one entry per byte.
* Python `int` is embedded as `Int` (or `Nat` where the source guarantees
  non-negativity).
* Fallible Python code (code that can raise) is embedded with `Except Err α`.
* Python `str` values are embedded by the byte string they UTF-8 encode to
  (UTF-8 encoding is injective, so this is a faithful representation of the
  reachable behaviour; ASCII text such as hex addresses is one byte per
  character).
-/

/-- Byte strings: one `Nat` per byte. -/
abbrev Bytes := List Nat

/-- Error values corresponding to the exception classes raised by the
Python source (`ABIEncodingError`, `RLPError`, `ValueError`,
`NotImplementedError`, `OverflowError`, `IndexError`, `TypeError`,
`RuntimeError`), plus `outOfFuel`, an artifact of embedding
non-structural recursion with a fuel parameter (never reached by any
theorem below: all results are `ok`/specific errors). -/
inductive Err where
  | abiEncoding     -- ABIEncodingError
  | rlpError        -- RLPError
  | valueError      -- ValueError
  | notImplemented  -- NotImplementedError
  | overflow        -- OverflowError (int.to_bytes out of range)
  | indexError      -- IndexError
  | typeError       -- TypeError
  | runtimeError    -- RuntimeError
  | outOfFuel       -- embedding artifact for fuel-based recursion
deriving DecidableEq, Repr

/-! ## Big-endian integer helpers

`natToBe len n` embeds Python's `n.to_bytes(len, 'big')` (assuming the
caller has checked `n < 256^len`); `beToNat` embeds
`int.from_bytes(b, 'big')`. -/

/-- Big-endian fixed-width bytes of a natural number (low bytes last). -/
def natToBe : Nat → Nat → Bytes
  | 0, _ => []
  | l + 1, n => natToBe l (n / 256) ++ [n % 256]

/-- `int.from_bytes(b, 'big', signed=False)`. -/
def beToNat (b : Bytes) : Nat :=
  b.foldl (fun a c => a * 256 + c) 0

/-! ## RLP codec (`ether/rlp.py`) -/

namespace RLP

/-- An RLP item: a byte string or a nested list (`ether/rlp.py` works on
`Union[List, bytes]`). -/
inductive Item where
  | bytes (b : Bytes)
  | list (l : List Item)
deriving Repr

/-- Number of base-256 digits of `n` (0 for 0): `(n.bit_length() + 7) // 8`
in the Python source.  Implemented with a structural fuel recursion
(`n` itself bounds the digit count) so that it reduces definitionally. -/
def byteLenAux : Nat → Nat → Nat
  | 0, _ => 0
  | f + 1, n => if n = 0 then 0 else byteLenAux f (n / 256) + 1

def byteLen (n : Nat) : Nat := byteLenAux n n

/-- `i2be_rlp_padded(number)` with default arguments: minimal big-endian
bytes, zero encodes as the empty string.  The Python code computes
`length = (number.bit_length() + 7) // 8` and calls `to_bytes`, which is
exactly `natToBe` at the minimal byte length. -/
def minBe (n : Nat) : Bytes := natToBe (byteLen n) n

/-- `be2i_rlp(b)` (unsigned): empty maps to 0, else big-endian. -/
def be2i (b : Bytes) : Nat := beToNat b

/-- `_encode_length(length, offset)`. -/
def encodeLength (length offset : Nat) : Except Err Bytes :=
  if length ≤ 55 then
    .ok [offset + length]
  else if length ≥ 256 ^ 8 then
    .error .rlpError
  else
    let encLen := minBe length
    .ok ((offset + 55 + encLen.length) :: encLen)

mutual

/-- `encode(item)`: top-level RLP encoding.  Can only fail with
`RLPError` when a payload length reaches `256^8`. -/
def encode : Item → Except Err Bytes
  | .bytes b =>
      if b.length = 1 ∧ b.headI < 0x80 then .ok b
      else do
        let tag ← encodeLength b.length 0x80
        .ok (tag ++ b)
  | .list l => do
      let output ← encodeJoin l
      let tag ← encodeLength output.length 0xc0
      .ok (tag ++ output)

/-- `b''.join(encode(i) for i in item)` in the list branch of `encode`. -/
def encodeJoin : List Item → Except Err Bytes
  | [] => .ok []
  | i :: rest => do
      let e ← encode i
      let r ← encodeJoin rest
      .ok (e ++ r)

end

/-- `_decode_length(raw) -> (prefix_len, payload_len, is_list)`; `true`
means a byte string (`BYTES = True` in the source).  Faithful to the
source: the bytes branch only accepts long-length tags up to
`0xb7 + 7 = 0xbe`, and a tag of `0xbf` falls through to the short-list
branch where Python computes `0xbf - 0xc0 = -1`; slicing with a negative
stop yields the empty payload, which the `Nat` truncated subtraction
reproduces exactly. -/
def decodeLength (raw : Bytes) : Except Err (Nat × Nat × Bool) :=
  match raw with
  | [] => .error .rlpError  -- 'Malformatted bytestring. Null.'
  | tag :: rest =>
      if tag < 0x80 then .ok (0, 1, true)
      else if tag ≤ 0xb7 then .ok (1, tag - 0x80, true)
      else if tag ≤ 0xb7 + 7 then
        let encLenBytes := tag - 0xb7
        .ok (1 + encLenBytes, beToNat (rest.take encLenBytes), true)
      else if tag ≤ 0xf7 then .ok (1, tag - 0xc0, false)
      else
        let encLenBytes := tag - 0xf7
        .ok (1 + encLenBytes, beToNat (rest.take encLenBytes), false)

mutual

/-- `decode(raw)` with a fuel parameter for the non-structural mutual
recursion with `decode_list`.  Python's slices `raw[a:b]` never raise, so
truncated inputs are silently accepted, exactly as in the source (the
`except IndexError` handlers in the source are unreachable). -/
def decodeF : Nat → Bytes → Except Err Item
  | 0, _ => .error .outOfFuel
  | _ + 1, [] => .ok (.bytes [])
  | f + 1, c :: rest => do
      let (offset, dataLen, isBytes) ← decodeLength (c :: rest)
      let nextItem := ((c :: rest).drop offset).take dataLen
      if isBytes then .ok (.bytes nextItem)
      else .map .list (decodeListF f nextItem)

/-- `decode_list(raw)` body: peel items while input remains. -/
def decodeListF : Nat → Bytes → Except Err (List Item)
  | 0, _ => .error .outOfFuel
  | _ + 1, [] => .ok []
  | f + 1, c :: rem => do
      let (offset, dataLen, _) ← decodeLength (c :: rem)
      let nextItem := (c :: rem).take (offset + dataLen)
      let item ← decodeF f nextItem
      let rest ← decodeListF f ((c :: rem).drop (offset + dataLen))
      .ok (item :: rest)

end

/-- Public `decode` entry point; `2*|raw| + 2` fuel always suffices (each
recursive step strictly shrinks the input). -/
def decode (raw : Bytes) : Except Err Item :=
  decodeF (2 * raw.length + 2) raw

/-- Public `decode_list` entry point (used by no claim directly but part
of the embedded module surface). -/
def decodeList (raw : Bytes) : Except Err (List Item) :=
  decodeListF (2 * raw.length + 3) raw

end RLP

/-! ## Transaction model (`ether/transactions.py`)

Addresses are stored in the Python source as `0x`-prefixed hex strings
and converted with `bytes.fromhex(self.to[2:])` on serialization and
`f'0x{raws[i].hex()}'` on deserialization; we embed an address by the
raw byte string (the two representations are in bijection for the
canonical lower-case form the library itself produces).  The external
crypto collaborator (`ether/crypto.py` wraps Keccak-256 and secp256k1)
is passed in as function parameters. -/

namespace Tx

/-- `SignedEthTx` field record.  The cached `tx_id` attribute is
derived data (`keccak256(serialize())`, see `txId` below), so it is not
duplicated as a field. -/
structure SignedEthTx where
  nonce : Nat
  gasPrice : Nat
  gas : Nat
  toAddr : Bytes  -- the `to` field (renamed: `to` is reserved in Lean)
  value : Nat
  data : Bytes
  v : Nat
  r : Nat
  s : Nat
deriving Repr, DecidableEq

/-- `SignedCeloTx`: the Celo variant adds two optional address fields. -/
structure SignedCeloTx where
  nonce : Nat
  gasPrice : Nat
  gas : Nat
  gasCurrency : Option Bytes
  gasFeeRecipient : Option Bytes
  toAddr : Bytes  -- the `to` field (renamed: `to` is reserved in Lean)
  value : Nat
  data : Bytes
  v : Nat
  r : Nat
  s : Nat
deriving Repr, DecidableEq

/-- `UnsignedEthTx` field record. -/
structure UnsignedEthTx where
  nonce : Nat
  gasPrice : Nat
  gas : Nat
  toAddr : Bytes  -- the `to` field (renamed: `to` is reserved in Lean)
  value : Nat
  data : Bytes
  chainId : Nat
deriving Repr, DecidableEq

/-- `SignedEthTx.serialize`: RLP of the nine-element field list, integer
fields in minimal big-endian form (`rlp.i2be_rlp_padded`). -/
def SignedEthTx.serialize (t : SignedEthTx) : Except Err Bytes :=
  RLP.encode (.list [
    .bytes (RLP.minBe t.nonce),
    .bytes (RLP.minBe t.gasPrice),
    .bytes (RLP.minBe t.gas),
    .bytes t.toAddr,
    .bytes (RLP.minBe t.value),
    .bytes t.data,
    .bytes (RLP.minBe t.v),
    .bytes (RLP.minBe t.r),
    .bytes (RLP.minBe t.s)])

/-- `SignedCeloTx.serialize`: the eleven-element Celo field list; null
optional addresses serialize as empty byte strings. -/
def SignedCeloTx.serialize (t : SignedCeloTx) : Except Err Bytes :=
  RLP.encode (.list [
    .bytes (RLP.minBe t.nonce),
    .bytes (RLP.minBe t.gasPrice),
    .bytes (RLP.minBe t.gas),
    .bytes (t.gasCurrency.getD []),
    .bytes (t.gasFeeRecipient.getD []),
    .bytes t.toAddr,
    .bytes (RLP.minBe t.value),
    .bytes t.data,
    .bytes (RLP.minBe t.v),
    .bytes (RLP.minBe t.r),
    .bytes (RLP.minBe t.s)])

/-- `tx_id`: Keccak-256 of the signed serialization (set by
`_set_tx_id`); equality of signed transactions compares this value. -/
def SignedEthTx.txId (kec : Bytes → Bytes) (t : SignedEthTx) : Except Err Bytes :=
  .map kec t.serialize

/-- Extract a byte-string element: Python would raise a `TypeError` when
hex-encoding or `be2i_rlp`-converting a nested list. -/
def asBytes : RLP.Item → Except Err Bytes
  | .bytes b => .ok b
  | .list _ => .error .typeError

/-- `raws[i]` with Python `IndexError` semantics. -/
def itemAt (l : List RLP.Item) (i : Nat) : Except Err RLP.Item :=
  match l.get? i with
  | some x => .ok x
  | none => .error .indexError

/-- `SignedEthTx.deserialize`: RLP-decode, then read the nine fields. -/
def SignedEthTx.deserialize (raw : Bytes) : Except Err SignedEthTx := do
  let item ← RLP.decode raw
  match item with
  | .bytes _ => .error .typeError
  | .list raws => do
      let b0 ← asBytes (← itemAt raws 0)
      let b1 ← asBytes (← itemAt raws 1)
      let b2 ← asBytes (← itemAt raws 2)
      let b3 ← asBytes (← itemAt raws 3)
      let b4 ← asBytes (← itemAt raws 4)
      let b5 ← asBytes (← itemAt raws 5)
      -- `(v, r, s) = [rlp.be2i_rlp(i) for i in raws[6:]]`: unpacking a
      -- list whose length differs from 3 raises a `ValueError`.
      match raws.drop 6 with
      | [x, y, z] => do
          let bv ← asBytes x
          let br ← asBytes y
          let bs ← asBytes z
          .ok {
            nonce := RLP.be2i b0, gasPrice := RLP.be2i b1, gas := RLP.be2i b2,
            toAddr := b3, value := RLP.be2i b4, data := b5,
            v := RLP.be2i bv, r := RLP.be2i br, s := RLP.be2i bs }
      | _ => .error .valueError

/-- `SignedCeloTx.deserialize`, faithful to the source including its
misread field positions: `to` is read from `raws[3]` (the
`gasCurrency` slot), `value` from `raws[4]` (the `gasFeeRecipient`
slot), `data` from `raws[5]` (the `to` slot), and `(v, r, s)` is
unpacked from `raws[6:]`, which holds five elements for a well-formed
Celo serialization. -/
def SignedCeloTx.deserialize (raw : Bytes) : Except Err SignedCeloTx := do
  let item ← RLP.decode raw
  match item with
  | .bytes _ => .error .typeError
  | .list raws => do
      let b0 ← asBytes (← itemAt raws 0)
      let b1 ← asBytes (← itemAt raws 1)
      let b2 ← asBytes (← itemAt raws 2)
      let b3 ← asBytes (← itemAt raws 3)
      let b4 ← asBytes (← itemAt raws 4)
      let b5 ← asBytes (← itemAt raws 5)
      match raws.drop 6 with
      | [x, y, z] => do
          let bv ← asBytes x
          let br ← asBytes y
          let bs ← asBytes z
          .ok {
            nonce := RLP.be2i b0, gasPrice := RLP.be2i b1, gas := RLP.be2i b2,
            gasCurrency := if b3 = [] then none else some b3,
            gasFeeRecipient := if b4 = [] then none else some b4,
            toAddr := b3, value := RLP.be2i b4, data := b5,
            v := RLP.be2i bv, r := RLP.be2i br, s := RLP.be2i bs }
      | _ => .error .valueError

/-- `UnsignedEthTx._with_null_signature()`: signed copy with
`(v, r, s) = (chainId, 0, 0)`. -/
def UnsignedEthTx.withNullSig (t : UnsignedEthTx) : SignedEthTx :=
  { nonce := t.nonce, gasPrice := t.gasPrice, gas := t.gas, toAddr := t.toAddr,
    value := t.value, data := t.data, v := t.chainId, r := 0, s := 0 }

/-- `UnsignedEthTx.serialize`. -/
def UnsignedEthTx.serialize (t : UnsignedEthTx) : Except Err Bytes :=
  t.withNullSig.serialize

/-- `UnsignedEthTx.sighash`: Keccak-256 of the unsigned serialization. -/
def UnsignedEthTx.sighash (kec : Bytes → Bytes) (t : UnsignedEthTx) : Except Err Bytes :=
  .map kec t.serialize

/-- `crypto.sign(message, key)` from `ether/crypto.py`: hashes the
message with the digest algorithm (default `keccak256`) and signs the
digest with the external `sign_hash` primitive (modelled as a function
parameter `sigHash`). -/
def cryptoSign (kec : Bytes → Bytes) (sigHash : Bytes → Nat × Nat × Nat)
    (message : Bytes) : Nat × Nat × Nat :=
  sigHash (kec message)

/-- `UnsignedEthTx.get_signature(key)` = `crypto.sign(self.sighash(), key)`
(note: this hashes the sighash a second time inside `crypto.sign`). -/
def UnsignedEthTx.getSignature (kec : Bytes → Bytes)
    (sigHash : Bytes → Nat × Nat × Nat) (t : UnsignedEthTx) :
    Except Err (Nat × Nat × Nat) := do
  let h ← t.sighash kec
  .ok (cryptoSign kec sigHash h)

/-- `UnsignedEthTx.sign(key)`: build a fresh signed value copying all
fields and attaching the signature.  There is no chainId validation
anywhere on this path in the source. -/
def UnsignedEthTx.sign (kec : Bytes → Bytes)
    (sigHash : Bytes → Nat × Nat × Nat) (t : UnsignedEthTx) :
    Except Err SignedEthTx := do
  let (sv, sr, ss) ← t.getSignature kec sigHash
  .ok { nonce := t.nonce, gasPrice := t.gasPrice, gas := t.gas, toAddr := t.toAddr,
        value := t.value, data := t.data, v := sv, r := sr, s := ss }

end Tx

/-! ## ABI codec (`ether/abi.py`)

The Python module dispatches on type-descriptor *strings* (`'uint256'`,
`'bytes4[2]'`, ...).  We embed the descriptors as an inductive type;
each string test of the source (`type_str[-2:] == '[]'`,
`'string' in type_str`, ...) is translated to the predicate it denotes
on descriptor strings generated by this grammar. -/

namespace ABI

/-- ABI type descriptors.  `sint` embeds `int<N>` (`int` is reserved in
Lean), `str` embeds `string`, `fixedBytes k` embeds `bytes<K>`.  The
unsupported `fixed`/`ufixed` descriptors (rejected by the source with
`NotImplementedError`) and free-form unknown strings are not needed by
any claim and are omitted. -/
inductive AbiType where
  | uint (n : Nat)
  | sint (n : Nat)
  | bool
  | address
  | fixedBytes (k : Nat)
  | bytes
  | str
  | dynArr (t : AbiType)
  | fixArr (t : AbiType) (n : Nat)
deriving DecidableEq, Repr

/-- Python argument values as the ABI codec sees them: `int`, `bool`,
`str` (by its UTF-8 bytes, see the file header), `bytes`, `list`. -/
inductive PyVal where
  | vInt (i : Int)
  | vBool (b : Bool)
  | vStr (s : Bytes)
  | vBytes (b : Bytes)
  | vList (l : List PyVal)
deriving Repr

/-- `_inner_type(type_str)`: strip the last `[...]`.  Only ever called
on array descriptors (on anything else the Python `rindex` would raise);
the catch-all branch is unreachable from the embedded code. -/
def innerType : AbiType → AbiType
  | .dynArr t => t
  | .fixArr t _ => t
  | t => t

/-- `_array_length(type_str)`: 0 for non-arrays and dynamic arrays, `N`
for `T[N]`, raising `NotImplementedError` for `N = 1`. -/
def arrayLength : AbiType → Except Err Nat
  | .dynArr _ => .ok 0
  | .fixArr _ n => if n = 1 then .error .notImplemented else .ok n
  | _ => .ok 0

/-- Whether the descriptor string contains the substring `'string'`. -/
def hasStrTok : AbiType → Bool
  | .str => true
  | .dynArr t => hasStrTok t
  | .fixArr t _ => hasStrTok t
  | _ => false

/-- Whether the descriptor string contains the substring `'bytes['`
(i.e. an array whose element descriptor is exactly `bytes`). -/
def hasBytesArr : AbiType → Bool
  | .dynArr .bytes => true
  | .fixArr .bytes _ => true
  | .dynArr t => hasBytesArr t
  | .fixArr t _ => hasBytesArr t
  | _ => false

/-- Whether the descriptor string contains the substring `'[]'`
(i.e. a dynamic array somewhere). -/
def hasDynTok : AbiType → Bool
  | .dynArr _ => true
  | .fixArr t _ => hasDynTok t
  | _ => false

/-- `_is_dynamic(type_str)`:
`'[]' in t or 'string' in t or 'bytes[' in t or t == 'bytes'`. -/
def isDynamic (t : AbiType) : Bool :=
  hasDynTok t || hasStrTok t || hasBytesArr t || (t == .bytes)

/-- Whether the descriptor contains `'[][]'` (adjacent dynamic-array
suffixes). -/
def hasDD : AbiType → Bool
  | .dynArr (.dynArr _) => true
  | .dynArr t => hasDD t
  | .fixArr t _ => hasDD t
  | _ => false

/-- Whether the descriptor contains `'string[]'`. -/
def hasStrArr : AbiType → Bool
  | .dynArr .str => true
  | .dynArr t => hasStrArr t
  | .fixArr t _ => hasStrArr t
  | _ => false

/-- Whether the descriptor contains `'bytes[]'`. -/
def hasBytesDynArr : AbiType → Bool
  | .dynArr .bytes => true
  | .dynArr t => hasBytesDynArr t
  | .fixArr t _ => hasBytesDynArr t
  | _ => false

/-- `_is_complex(type_str)`:
`'[][]' in t or 'string[]' in t or 'bytes[]' in t`. -/
def isComplex (t : AbiType) : Bool :=
  hasDD t || hasStrArr t || hasBytesDynArr t

/-- Iterating / taking `len()` of a value that must be a Python list. -/
def asVList : PyVal → Except Err (List PyVal)
  | .vList l => .ok l
  | _ => .error .typeError

/-- `_encode_uint(number)`: reject non-int and negatives with
`ABIEncodingError`; `number.to_bytes(32, 'big')` raises `OverflowError`
at `2^256`.  A Python `bool` passes the `isinstance(number, int)` check
(bool is an int subtype) and encodes as 0/1. -/
def encodeUintV : PyVal → Except Err Bytes
  | .vInt i =>
      if i < 0 then .error .abiEncoding
      else if 2 ^ 256 ≤ i then .error .overflow
      else .ok (natToBe 32 i.toNat)
  | .vBool b => .ok (natToBe 32 (if b then 1 else 0))
  | _ => .error .abiEncoding

/-- `_decode_uint(b)` (with the `single_item_decoder` 32-byte check). -/
def decodeUintW (b : Bytes) : Except Err Nat :=
  if b.length = 32 then .ok (beToNat b) else .error .abiEncoding

/-- `_encode_int(number)`: `to_bytes(32, 'big', signed=True)` raises
`OverflowError` outside `[-2^255, 2^255)`; in range it produces the
32-byte two's complement. -/
def encodeIntV : PyVal → Except Err Bytes
  | .vInt i =>
      if i < -(2 ^ 255) ∨ 2 ^ 255 ≤ i then .error .overflow
      else .ok (natToBe 32 (i.emod (2 ^ 256)).toNat)
  | .vBool b => .ok (natToBe 32 (if b then 1 else 0))
  | _ => .error .abiEncoding

/-- `_decode_int(b)`: 32-byte two's complement. -/
def decodeIntW (b : Bytes) : Except Err Int :=
  if b.length = 32 then
    let u := beToNat b
    .ok (if u < 2 ^ 255 then (u : Int) else (u : Int) - 2 ^ 256)
  else .error .abiEncoding

/-- `_encode_fixed_bytes(b)`: right-pad with `32 - (len(b) % 32)` zero
bytes (note: a full extra zero word when the length is already a
multiple of 32). -/
def encodeFixedBytesV : PyVal → Except Err Bytes
  | .vBytes b => .ok (b ++ List.replicate (32 - b.length % 32) 0)
  | _ => .error .abiEncoding

/-- `_decode_fixed_bytes(b, 'bytes<K>')` (with the 32-byte check). -/
def decodeFixedBytesW (k : Nat) (b : Bytes) : Except Err Bytes :=
  if b.length = 32 then .ok (b.take k) else .error .abiEncoding

/-- `_encode_dynamic_bytes(b)`: padded payload, then prepend the length
word (returns just the tail portion). -/
def encodeDynamicBytesV : PyVal → Except Err Bytes
  | .vBytes b => do
      let payload ← encodeFixedBytesV (.vBytes b)
      let lw ← encodeUintV (.vInt b.length)
      .ok (lw ++ payload)
  | _ => .error .abiEncoding

/-- `_decode_dynamic_bytes(b)`: read the length word, slice the
payload (Python slicing, so a short payload is silently truncated). -/
def decodeDynamicBytes (b : Bytes) : Except Err Bytes := do
  let len ← decodeUintW (b.take 32)
  .ok ((b.drop 32).take len)

/-- `_encode_str(arg)`: UTF-8 encode (identity under our representation
of `str` values), then as dynamic bytes. -/
def encodeStrV : PyVal → Except Err Bytes
  | .vStr s => encodeDynamicBytesV (.vBytes s)
  | _ => .error .abiEncoding

/-- One hex digit of `int(s, 16)` (ASCII byte to value). -/
def hexDigitVal (c : Nat) : Except Err Nat :=
  if 48 ≤ c ∧ c ≤ 57 then .ok (c - 48)
  else if 97 ≤ c ∧ c ≤ 102 then .ok (c - 87)
  else if 65 ≤ c ∧ c ≤ 70 then .ok (c - 55)
  else .error .valueError

/-- `int(s, 16)` on the ASCII bytes of `s`: optional `0x`/`0X` prefix,
then a non-empty digit string (surrounding whitespace, sign characters
and underscore separators, which CPython also tolerates, are outside
the canonical forms this development exercises). -/
def parseHex16 (s : Bytes) : Except Err Nat := do
  let s1 := if s.take 2 = [48, 120] ∨ s.take 2 = [48, 88] then s.drop 2 else s
  if s1 = [] then .error .valueError
  else s1.foldlM (fun a c => do .ok (a * 16 + (← hexDigitVal c))) 0

/-- `_encode_address(arg)`: `_encode_uint(int(arg, 16))`; a non-`str`
argument raises `TypeError` inside `int()`. -/
def encodeAddressV : PyVal → Except Err Bytes
  | .vStr s => do encodeUintV (.vInt (← parseHex16 s))
  | _ => .error .typeError

/-- ASCII byte of a lower-case hex digit. -/
def hexChar (d : Nat) : Nat := if d < 10 then 48 + d else 87 + d

/-- `b.hex()`: lower-case hex string of a byte string. -/
def hexOfBytes (b : Bytes) : Bytes :=
  (b.map (fun c => [hexChar (c / 16), hexChar (c % 16)])).flatten

/-- `_decode_address(b)`: `f'0x{b[-20:].hex()}'` (with the 32-byte
check; the last 20 of 32 bytes are `drop 12`). -/
def decodeAddressW (b : Bytes) : Except Err PyVal :=
  if b.length = 32 then .ok (.vStr ([48, 120] ++ hexOfBytes (b.drop 12)))
  else .error .abiEncoding

/-- Effectful map over `Except` (the list comprehensions and
generator joins of the source; errors propagate left-to-right). -/
def mapME {A B : Type} (g : A → Except Err B) : List A → Except Err (List B)
  | [] => .ok []
  | x :: xs => do .ok ((← g x) :: (← mapME g xs))

/-- `_slots_to_encode(type_str, arg)`: `(head_slots, tail_slots)` of an
item.  Fueled only for the nesting through list elements; `tdepth t + 1`
fuel always suffices (see `slotsF_fuel` uses below). -/
def slotsF : Nat → AbiType → PyVal → Except Err (Nat × Nat)
  | 0, _, _ => .error .outOfFuel
  | f + 1, t, v =>
      match t with
      | .str => do
          let e ← encodeStrV v
          .ok (1, e.length / 32)
      | .bytes => do
          let e ← encodeDynamicBytesV v
          .ok (1, e.length / 32)
      | .dynArr t' => do
          let l ← asVList v
          let us ← mapME (slotsF f t') l
          -- `_join_lists` sums componentwise; `sum(tail) + 1`
          .ok (1, (us.map Prod.fst).sum + (us.map Prod.snd).sum + 1)
      | .fixArr t' n => do
          let arrLen ← arrayLength (.fixArr t' n)
          let l ← asVList v
          if l.length ≠ arrLen then .error .abiEncoding
          else do
            let us ← mapME (slotsF f t') l
            -- `usage = list(_join_lists(...))`; `usage[0]` raises on []
            match us with
            | [] => .error .indexError
            | _ => .ok ((us.map Prod.fst).sum, (us.map Prod.snd).sum)
      | _ => .ok (1, 0)

/-- `_encode_offset(head_size, tail_pos)`. -/
def encodeOffset (headSize tailPos : Nat) : Except Err Bytes :=
  encodeUintV (.vInt ((tailPos + headSize) * 32))

/-- The offset-substitution pass of `encode_many`: walk the per-item
`(head, tail)` encodings in parallel with `slot_usage`, replacing each
empty head by the offset word `(head_size + tail_pos) * 32` where
`tail_pos` accumulates the tail slots of the preceding items.  (The
Python loop interleaves this with the per-item `encode` calls; the
observable results agree since `slot_usage` is fully computed before
the loop.) -/
def fixHeads (headSize : Nat) :
    List (Nat × Nat) → List (Bytes × Bytes) → Nat →
    Except Err (List (Bytes × Bytes))
  | _, [], _ => .ok []
  | [], _ :: _, _ => .ok []  -- unreachable: both lists share a length
  | su :: sus, (eh, et) :: rest, tailPos => do
      let eh' ← if eh = [] then encodeOffset headSize tailPos else .ok eh
      let r ← fixHeads headSize sus rest (tailPos + su.2)
      .ok ((eh', et) :: r)

mutual

/-- `encode(type_str, arg) -> (head, tail)`, with fuel for the nesting
through dynamic arrays (`2 * depth + 2` always suffices; see the public
wrapper `encodeOne`).  Branches follow the source's dispatch order;
each descriptor constructor matches exactly one branch. -/
def encodeF : Nat → AbiType → PyVal → Except Err (Bytes × Bytes)
  | 0, _, _ => .error .outOfFuel
  | f + 1, t, v =>
      match t with
      | .address => do .ok (← encodeAddressV v, [])
      | .str => do .ok ([], ← encodeStrV v)
      | .bytes => do .ok ([], ← encodeDynamicBytesV v)
      | .dynArr t' => do
          -- `_encode_dynamic_array`: length word, then
          -- `encode_many([inner] * len(arg), arg)`
          let l ← asVList v
          let lw ← encodeUintV (.vInt (l.length : Int))
          let body ← encodeManyF f (List.replicate l.length t') l
          .ok ([], lw ++ body)
      | .fixArr t' _ => do
          -- `_encode_fixed_array`: join of the inner heads only
          let l ← asVList v
          let parts ← mapME (fun a => do
            let (h, _) ← encodeF f t' a
            .ok h) l
          .ok (parts.flatten, [])
      | .fixedBytes k =>
          if k < 32 then
            match v with
            | .vBytes b =>
                if 32 < b.length then .error .abiEncoding
                else do .ok (← encodeFixedBytesV (.vBytes b), [])
            | .vStr _ | .vList _ => .error .abiEncoding
            | _ => .error .typeError  -- len() of an int
          else .error .valueError  -- falls through: 'Unknown type'
      | .uint _ => do .ok (← encodeUintV v, [])
      | .sint _ => do .ok (← encodeIntV v, [])
      | .bool =>
          match v with
          | .vBool b => .ok (natToBe 32 (if b then 1 else 0), [])
          | _ => .error .abiEncoding

/-- `encode_many(type_list, arg_list)`: compute `slot_usage`, the raw
per-item encodings, substitute offset words for dynamic heads, then
concatenate all heads followed by all tails. -/
def encodeManyF : Nat → List AbiType → List PyVal → Except Err Bytes
  | 0, _, _ => .error .outOfFuel
  | f + 1, ts, vs => do
      let pairs := ts.zip vs  -- Python zip truncates to the shorter list
      let su ← mapME (fun p => slotsF f p.1 p.2) pairs
      let headSize := (su.map Prod.fst).sum
      let raws ← mapME (fun p => encodeF f p.1 p.2) pairs
      let items ← fixHeads headSize su raws 0
      .ok ((items.map Prod.fst).flatten ++ (items.map Prod.snd).flatten)

end

/-- `[b[i:i+n] for i in range(0, len(b), n)]` for `n ≥ 1`. -/
def chunksOf (n : Nat) (b : Bytes) : List Bytes :=
  (List.range ((b.length + n - 1) / n)).map (fun i => (b.drop (i * n)).take n)

/-- `slots[head_pos]` with Python `IndexError`. -/
def slotAt (slots : List Bytes) (i : Nat) : Except Err Bytes :=
  match slots.get? i with
  | some s => .ok s
  | none => .error .indexError

/-- The inner `for i in range(head_items)` loop of `decode_many`,
abstracted over the single-item decoder `dec` (instantiated with
`decodeSingleF f`).  For a static element type the head word is decoded
in place; for a dynamic one the word is an offset: splice the slots from
`offset // 32` onward and hand them to the decoder. -/
def decodeItems (dec : AbiType → Bytes → Except Err PyVal)
    (slots : List Bytes) (tElem : AbiType) :
    Nat → Nat → Except Err (List PyVal)
  | _, 0 => .ok []
  | headPos, count + 1 => do
      let h ← slotAt slots headPos
      let v ←
        if ¬ isDynamic tElem then dec tElem h
        else do
          let tailLoc := (← decodeUintW h) / 32
          dec tElem (slots.drop tailLoc).flatten
      let rest ← decodeItems dec slots tElem (headPos + 1) count
      .ok (v :: rest)

/-- The `while head_pos < head_size` loop of `decode_many`: one type per
iteration, `max(1, array_length)` head words each; fixed-array values
are grouped, everything else is emitted flat.  Running out of types with
head positions remaining is the Python `type_list[type_pos]`
`IndexError`. -/
def decodeLoop (dec : AbiType → Bytes → Except Err PyVal)
    (slots : List Bytes) (headSize : Nat) :
    List AbiType → Nat → Except Err (List PyVal)
  | [], headPos => if headPos < headSize then .error .indexError else .ok []
  | t :: rest, headPos =>
      if headPos < headSize then do
        let al ← arrayLength t
        let headItems := max 1 al
        let tElem := if al = 0 then t else innerType t
        let dec' ← decodeItems dec slots tElem headPos headItems
        let r ← decodeLoop dec slots headSize rest (headPos + headItems)
        .ok ((if al ≠ 0 then [.vList dec'] else dec') ++ r)
      else .ok []

mutual

/-- `decode(type_str, b)`, fueled for the nesting through dynamic
arrays.  Branches follow the source's dispatch order. -/
def decodeSingleF : Nat → AbiType → Bytes → Except Err PyVal
  | 0, _, _ => .error .outOfFuel
  | f + 1, t, b =>
      match t with
      | .dynArr t' => do
          -- `_decode_dynamic_array`
          let len ← decodeUintW (b.take 32)
          let vs ← decodeManyDF f (List.replicate len t') (b.drop 32)
          .ok (.vList vs)
      | .fixArr t' n => do
          -- `_decode_fixed_array`
          if isComplex (.fixArr t' n) then .error .abiEncoding
          else do
            let len ← arrayLength (.fixArr t' n)
            -- `item_len = 32 * _slots_to_encode(inner, range(length))[0]`
            let su ← slotsF f t' (.vList ((List.range len).map (fun i => .vInt i)))
            let itemLen := 32 * su.1
            if itemLen = 0 then .error .valueError  -- range step 0
            else do
              let vs ← mapME (fun c => decodeSingleF f t' c) (chunksOf itemLen b)
              .ok (.vList vs)
      | .address => decodeAddressW (b.take 32)
      | .str => do .ok (.vStr (← decodeDynamicBytes b))
      | .bytes => do .ok (.vBytes (← decodeDynamicBytes b))
      | .fixedBytes k => do .ok (.vBytes (← decodeFixedBytesW k (b.take 32)))
      | .uint _ => do .ok (.vInt (← decodeUintW (b.take 32)))
      | .sint _ => do .ok (.vInt (← decodeIntW (b.take 32)))
      | .bool => .ok (.vBool (decide ((b.drop 31).take 1 = [1])))

/-- `decode_many(type_list, b)`. -/
def decodeManyDF : Nat → List AbiType → Bytes → Except Err (List PyVal)
  | 0, _, _ => .error .outOfFuel
  | f + 1, ts, b =>
      if b.length % 32 ≠ 0 then .error .valueError
      else do
        let als ← mapME arrayLength ts
        -- `head_size = len(type_list) + Σ max(0, array_length - 1)`
        let headSize := ts.length + (als.map (fun a => a - 1)).sum
        let slots := chunksOf 32 b
        decodeLoop (decodeSingleF f) slots headSize ts 0

end

/-- Dynamic-array nesting depth of a descriptor: bounds the fuel the
fueled encoders/decoders can consume per nesting level. -/
def tdepth : AbiType → Nat
  | .dynArr t => tdepth t + 1
  | .fixArr t _ => tdepth t + 1
  | _ => 0

/-- Maximum depth over a type list. -/
def listDepth (ts : List AbiType) : Nat := (ts.map tdepth).foldr max 0

/-- Public `encode(type_str, arg)` (fuel is an embedding artifact;
`2 * depth + 2` suffices for every input). -/
def encodeOne (t : AbiType) (v : PyVal) : Except Err (Bytes × Bytes) :=
  encodeF (2 * tdepth t + 2) t v

/-- Public `encode_many(type_list, arg_list)`. -/
def encodeMany (ts : List AbiType) (vs : List PyVal) : Except Err Bytes :=
  encodeManyF (2 * listDepth ts + 2) ts vs

/-- Public `decode(type_str, b)`. -/
def decodeOne (t : AbiType) (b : Bytes) : Except Err PyVal :=
  decodeSingleF (b.length + 2) t b

/-- Public `decode_many(type_list, b)`. -/
def decodeMany (ts : List AbiType) (b : Bytes) : Except Err (List PyVal) :=
  decodeManyDF (b.length + 2) ts b

/-! ### The supported fragment

`decode_many ∘ encode_many` is *not* the identity on every pair the
ABI grammar admits (fixed arrays of dynamic types lose their tails, see
the C1 counterexample).  The predicates below carve out the fragment on
which the round-trip is proved: scalars, `bytes`/`string`, dynamic
arrays of fragment types, and fixed arrays of scalars, with canonical
values (addresses as `0x` + 40 lower-case hex digits, `bytesK` values
of exactly `K` bytes). -/

/-- Static scalar type descriptors. -/
def isScalar : AbiType → Bool
  | .uint _ | .sint _ | .bool | .address | .fixedBytes _ => true
  | _ => false

/-- Well-typed canonical (type, value) pairs of the supported
fragment. -/
inductive WT : AbiType → PyVal → Prop where
  | wtUint (n : Nat) (i : Int) : WT (.uint n) (.vInt i)
  | wtInt (n : Nat) (i : Int) : WT (.sint n) (.vInt i)
  | wtBool (b : Bool) : WT .bool (.vBool b)
  | wtAddress (h : Bytes) (hl : h.length = 20) (hb : ∀ c ∈ h, c < 256) :
      WT .address (.vStr (48 :: 120 :: hexOfBytes h))
  | wtFixedBytes (k : Nat) (b : Bytes) (hk : k ≤ 31) (hlen : b.length = k) :
      WT (.fixedBytes k) (.vBytes b)
  | wtBytes (b : Bytes) : WT .bytes (.vBytes b)
  | wtStr (s : Bytes) : WT .str (.vStr s)
  | wtDynArr (t : AbiType) (l : List PyVal) (h : ∀ e ∈ l, WT t e) :
      WT (.dynArr t) (.vList l)
  | wtFixArr (t : AbiType) (n : Nat) (l : List PyVal) (hs : isScalar t = true)
      (h : ∀ e ∈ l, WT t e) : WT (.fixArr t n) (.vList l)

/-- Decoding contract of one successfully encoded item, as the tuple
decoder's loop consumes it: a static scalar occupies one head word
decoded in place; a fixed array of scalars occupies `n` head words; a
dynamic item occupies one offset head word and a tail that decodes
against an arbitrary 32-byte-aligned continuation.  `su` is the item's
`_slots_to_encode` result and `(rawHd, tl)` its `encode` result. -/
def ItemRT (t : AbiType) (v : PyVal) (su : Nat × Nat) (rawHd tl : Bytes) : Prop :=
  (isDynamic t = false ∧ arrayLength t = .ok 0 ∧ su = (1, 0) ∧ tl = [] ∧
    rawHd.length = 32 ∧ ∀ g, decodeSingleF (g + 1) t rawHd = .ok v) ∨
  (∃ s n ws l, t = .fixArr s n ∧ v = .vList l ∧ isDynamic t = false ∧
    isDynamic s = false ∧ arrayLength t = .ok n ∧ innerType t = s ∧
    2 ≤ n ∧ su = (n, 0) ∧ tl = [] ∧ rawHd = ws.flatten ∧ ws.length = n ∧
    List.Forall₂
      (fun w e => w.length = 32 ∧ ∀ g, decodeSingleF (g + 1) s w = .ok e)
      ws l) ∨
  (isDynamic t = true ∧ arrayLength t = .ok 0 ∧ su.1 = 1 ∧ rawHd = [] ∧
    tl.length = 32 * su.2 ∧ 1 ≤ su.2 ∧
    ∀ junk g, 32 ∣ junk.length → tl.length + junk.length + 64 ≤ 32 * g →
      decodeSingleF g t (tl ++ junk) = .ok v)

/-- Per-item decoding contract after the offset-substitution pass, in
the order the tuple decoder walks the head words.  `rs` pairs each
item's `slot_usage` with its substituted head *word list* and its tail;
`tp` is the number of 32-byte tail words laid out before the remaining
items.  The three clauses mirror `ItemRT` with the dynamic head
resolved to its offset word. -/
def ChainDec (headSize : Nat) : Nat → List (AbiType × PyVal) →
    List ((Nat × Nat) × (List Bytes × Bytes)) → Prop
  | _, [], [] => True
  | tp, (t, v) :: ps, (su, (hws, tl)) :: rs =>
      ((isDynamic t = false ∧ arrayLength t = .ok 0 ∧ su = (1, 0) ∧ tl = [] ∧
        ∃ w, hws = [w] ∧ w.length = 32 ∧
          ∀ g, decodeSingleF (g + 1) t w = .ok v) ∨
       (∃ s n l, t = .fixArr s n ∧ v = .vList l ∧ isDynamic t = false ∧
         isDynamic s = false ∧ arrayLength t = .ok n ∧ innerType t = s ∧
         2 ≤ n ∧ su = (n, 0) ∧ tl = [] ∧ hws.length = n ∧
         List.Forall₂
           (fun w e => w.length = 32 ∧ ∀ g, decodeSingleF (g + 1) s w = .ok e)
           hws l) ∨
       (isDynamic t = true ∧ arrayLength t = .ok 0 ∧ su.1 = 1 ∧
         hws = [natToBe 32 ((tp + headSize) * 32)] ∧
         (tp + headSize) * 32 < 2 ^ 256 ∧
         tl.length = 32 * su.2 ∧ 1 ≤ su.2 ∧
         ∀ junk g, 32 ∣ junk.length → tl.length + junk.length + 64 ≤ 32 * g →
           decodeSingleF g t (tl ++ junk) = .ok v)) ∧
      ChainDec headSize (tp + su.2) ps rs
  | _, _, _ => False

end ABI

/-! ## JSON-RPC client (`ether/ethrpc.py`) -/

namespace RPC

/-- JSON values (response payloads). -/
inductive Json where
  | jNull
  | jBool (b : Bool)
  | jNum (n : Int)
  | jStr (s : String)
  | jArr (l : List Json)
  | jObj (kvs : List (String × Json))
deriving Repr

/-- Errors on the RPC path: `RuntimeError(f'Bad status during RPC
request: {resp.status}')` carries the status; `TypeError`/`KeyError`
for the unreachable ill-typed payload shapes. -/
inductive RpcErr where
  | transport (status : Nat)
  | typeErr
  | keyErr
deriving DecidableEq, Repr

/-- Python `'result' in resp_json`: key membership for a dict, element
membership for a list, substring test for a string, `TypeError`
otherwise. -/
def containsResult : Json → Except RpcErr Bool
  | .jObj kvs => .ok (kvs.any (fun kv => kv.1 == "result"))
  | .jArr l => .ok (l.any (fun e =>
      match e with
      | .jStr s => s == "result"
      | _ => false))
  | .jStr s => .ok ((s.splitOn "result").length > 1)
  | _ => .error .typeErr

/-- Python `resp_json['result']` (first binding wins for a dict, as in
a Python dict there is only one). -/
def getResultItem : Json → Except RpcErr Json
  | .jObj kvs =>
      match kvs.find? (fun kv => kv.1 == "result") with
      | some kv => .ok kv.2
      | none => .error .keyErr
  | _ => .error .typeErr

/-- `HTTPRPC._RPC` response handling: reject any status other than
exactly 200 with a transport error carrying the status, otherwise
return the `result` field if present and the whole payload if not. -/
def httpHandle (status : Nat) (respJson : Json) : Except RpcErr Json :=
  if status ≠ 200 then .error (.transport status)
  else do
    let c ← containsResult respJson
    if c then getResultItem respJson else .ok respJson

/-- `RPCRequest`: method, params and the single-shot future; for the
session-state claims only the future's resolved/pending flag matters. -/
structure RPCRequest where
  method : String
  params : List Json
  futDone : Bool
deriving Repr

/-- `RPCSubscription`: method, params and the event queue. -/
structure RPCSub where
  method : String
  params : List Json
  queue : List Json
deriving Repr

/-- The two dictionaries created once, at class-definition time, by
`WSRPC`'s class body (`_inflight: Dict[int, RPCRequest] = {}` and
`_subscriptions: Dict[str, RPCSubscription] = {}`).  They live on the
class object, not on instances. -/
structure ClassState where
  inflight : List (Nat × RPCRequest)
  subs : List (String × RPCSub)
deriving Repr

/-- The per-instance attributes relevant to the session-state claims.
`instInflight`/`instSubs` model Python attribute shadowing: an
*instance* attribute of the same name would hide the class attribute,
but neither `BaseRPC.__init__` nor `WSRPC.__init__` ever assigns
`self._inflight` or `self._subscriptions`, so for every constructed
instance these are `none` and attribute lookup falls through to the
class dictionaries. -/
structure WSRPCInst where
  nextId : Nat      -- state of the `_id` generator
  connected : Bool
  instInflight : Option (List (Nat × RPCRequest))
  instSubs : Option (List (String × RPCSub))
deriving Repr

/-- `WSRPC(uri, network, _id=startId)`: the constructor seeds the id
generator and sets `connected = False`; it does not create per-instance
`_inflight`/`_subscriptions`. -/
def WSRPCInst.init (startId : Nat) : WSRPCInst :=
  { nextId := startId, connected := false,
    instInflight := none, instSubs := none }

/-- Attribute lookup `self._inflight`: the instance dictionary first,
else the class attribute. -/
def getInflight (c : ClassState) (inst : WSRPCInst) :
    List (Nat × RPCRequest) :=
  inst.instInflight.getD c.inflight

/-- Attribute lookup `self._subscriptions`. -/
def getSubs (c : ClassState) (inst : WSRPCInst) :
    List (String × RPCSub) :=
  inst.instSubs.getD c.subs

/-- Dict insert-or-replace preserving insertion order. -/
def dictUpd (d : List (Nat × RPCRequest)) (k : Nat) (v : RPCRequest) :
    List (Nat × RPCRequest) :=
  if d.any (fun kv => kv.1 == k) then
    d.map (fun kv => if kv.1 == k then (k, v) else kv)
  else d ++ [(k, v)]

/-- The mutation `self._inflight[req_id] = RPCRequest(...)`: it mutates
whichever dict object the attribute lookup found — the class-level dict
whenever the instance has no shadowing attribute. -/
def setInflightEntry (c : ClassState) (inst : WSRPCInst) (k : Nat)
    (v : RPCRequest) : ClassState × WSRPCInst :=
  match inst.instInflight with
  | none => ({ c with inflight := dictUpd c.inflight k v }, inst)
  | some d => (c, { inst with instInflight := some (dictUpd d k v) })

/-- `WSRPC._RPC(method, params)` up to its first suspension point:
draw `req_id = next(self._ids)`, create a fresh (unresolved) future and
store `RPCRequest(method, params, fut)` in `self._inflight`.  Returns
the updated states and the request id used on the wire. -/
def rpcRegister (c : ClassState) (inst : WSRPCInst) (method : String)
    (params : List Json) : ClassState × WSRPCInst × Nat :=
  let reqId := inst.nextId
  let inst1 := { inst with nextId := inst.nextId + 1 }
  let (c1, inst2) := setInflightEntry c inst1 reqId
    { method := method, params := params, futDone := false }
  (c1, inst2, reqId)

/-- Dict insert-or-replace for the subscription map. -/
def dictUpdS (d : List (String × RPCSub)) (k : String) (v : RPCSub) :
    List (String × RPCSub) :=
  if d.any (fun kv => kv.1 == k) then
    d.map (fun kv => if kv.1 == k then (k, v) else kv)
  else d ++ [(k, v)]

/-- The registration step of `WSRPC._subscribe`: after the
`eth_subscribe` RPC returns `sub_id`, store
`self._subscriptions[sub_id] = RPCSubscription(...)` — again through
attribute lookup, hitting the class-level dict for every constructed
instance. -/
def subRegister (c : ClassState) (inst : WSRPCInst) (subId : String)
    (params : List Json) (queue : List Json) : ClassState × WSRPCInst :=
  let v : RPCSub := { method := "eth_subscribe", params := params, queue := queue }
  match inst.instSubs with
  | none => ({ c with subs := dictUpdS c.subs subId v }, inst)
  | some d => (c, { inst with instSubs := some (dictUpdS d subId v) })

/-- `WSRPC.get_pending()`: refuse on a connected socket; collect the
requests whose futures are unresolved and all subscriptions; the resume
id is `max(self._inflight.keys()) + 1` (Python's `max` raises
`ValueError` on an empty dict). -/
def getPending (c : ClassState) (inst : WSRPCInst) :
    Except Err (Nat × List RPCRequest × List RPCSub) :=
  if inst.connected then .error .runtimeError
  else
    let inflight := getInflight c inst
    let pending := (inflight.filter (fun kv => !kv.2.futDone)).map Prod.snd
    let subsList := (getSubs c inst).map Prod.snd
    match inflight with
    | [] => .error .valueError
    | _ => .ok (((inflight.map Prod.fst).foldr max 0) + 1, pending, subsList)

end RPC

/-! ## Concrete samples and mock crypto adapters used by the claim
theorems and witnesses -/

/-- A mock Keccak-256 (the claims exercised with it do not depend on
the hash's value, only on how the code routes it). -/
def mockKec : Bytes → Bytes := fun _ => List.replicate 32 0

/-- A mock `sign_hash` primitive returning a fixed `(v, r, s)`. -/
def mockSigHash : Bytes → Nat × Nat × Nat := fun _ => (37, 1, 2)

/-- A concrete signed standard transaction (the EIP-155 example fields). -/
def sampleEth : Tx.SignedEthTx :=
  { nonce := 9, gasPrice := 20000000000, gas := 21000,
    toAddr := List.replicate 20 0x35, value := 1000000000000000000,
    data := [], v := 37, r := 1, s := 2 }

/-- The same transaction as a Celo-variant value with null gas fields. -/
def sampleCelo : Tx.SignedCeloTx :=
  { nonce := 9, gasPrice := 20000000000, gas := 21000,
    gasCurrency := none, gasFeeRecipient := none,
    toAddr := List.replicate 20 0x35, value := 1000000000000000000,
    data := [], v := 37, r := 1, s := 2 }

/-- An unsigned transaction with an explicit zero `chainId`. -/
def sampleUnsigned0 : Tx.UnsignedEthTx :=
  { nonce := 9, gasPrice := 20000000000, gas := 21000,
    toAddr := List.replicate 20 0x35, value := 1000000000000000000,
    data := [], chainId := 0 }

/-! # Theorems

One theorem per claim of the specification audit, preceded by the
supporting lemmas they share. -/

/-! ### Shared helper lemmas -/

@[simp]
theorem okBind {ε α β : Type} (a : α) (f : α → Except ε β) :
    (Except.ok a >>= f) = f a := rfl

@[simp]
theorem errBind {ε α β : Type} (e : ε) (f : α → Except ε β) :
    ((Except.error e : Except ε α) >>= f) = .error e := rfl

@[simp]
theorem mapOk {ε α β : Type} (g : α → β) (a : α) :
    (Except.map g (.ok a) : Except ε β) = .ok (g a) := rfl

@[simp]
theorem mapErr {ε α β : Type} (g : α → β) (e : ε) :
    (Except.map g (.error e) : Except ε β) = .error e := rfl

theorem natToBe_length (l n : Nat) : (natToBe l n).length = l := by
  induction l generalizing n with
  | zero => rfl
  | succ l ih => simp [natToBe, ih]

theorem beToNat_append (a b : Bytes) :
    beToNat (a ++ b) = beToNat a * 256 ^ b.length + beToNat b := by
  induction b using List.reverseRecOn with
  | nil => simp [beToNat]
  | append_singleton b c ih =>
      simp only [beToNat, List.foldl_append, List.foldl_cons, List.foldl_nil] at *
      rw [ih]
      simp only [List.length_append, List.length_cons, List.length_nil]
      ring

theorem beToNat_natToBe (l n : Nat) (h : n < 256 ^ l) :
    beToNat (natToBe l n) = n := by
  induction l generalizing n with
  | zero =>
      interval_cases n
      rfl
  | succ l ih =>
      have hdiv : n / 256 < 256 ^ l := by
        rw [Nat.div_lt_iff_lt_mul (by norm_num)]
        calc n < 256 ^ (l + 1) := h
        _ = 256 ^ l * 256 := by ring
      simp only [natToBe, beToNat_append, ih (n / 256) hdiv]
      simp only [List.length_cons, List.length_nil, pow_one, beToNat,
        List.foldl_cons, List.foldl_nil, Nat.zero_mul, Nat.zero_add]
      omega


/-- C6: the source's `decode` silently accepts truncated input: the tag
`0x82` promises two payload bytes but only one follows, and decoding
returns the truncated byte string `b'a'` instead of failing; only
`_decode_length` of an empty input fails (with `RLPError`).  The
`except IndexError` handlers meant to catch overruns are dead code
(Python slicing never raises `IndexError`). -/
theorem claim_C6 :
    RLP.decode [0x82, 0x61] = .ok (.bytes [0x61]) ∧
    RLP.decodeLength [] = .error .rlpError := by
  exact ⟨rfl, rfl⟩

/-- C2: round-trip evaluation of transaction serialization at a concrete
signed transaction in both variants.  The standard variant round-trips;
the Celo variant cannot deserialize its own serialization:
`SignedCeloTx.deserialize` unpacks `raws[6:]` — five elements of the
eleven-element Celo list — into `(v, r, s)`, which raises a
`ValueError` for every well-formed Celo serialization (besides reading
`to`/`value` from the `gasCurrency`/`gasFeeRecipient` positions). -/
theorem claim_C2 :
    (Tx.SignedEthTx.serialize sampleEth).bind Tx.SignedEthTx.deserialize
      = .ok sampleEth ∧
    (Tx.SignedCeloTx.serialize sampleCelo).isOk = true ∧
    (Tx.SignedCeloTx.serialize sampleCelo).bind Tx.SignedCeloTx.deserialize
      = .error .valueError := by
  exact ⟨rfl, rfl, rfl⟩

/-- C8 (amended): signing performs no chainId validation.  For every
crypto adapter and every unsigned transaction with `chainId = 0` whose
serialization succeeds, `sign` succeeds and returns the signed copy
with `(v, r, s)` taken from the adapter (which is handed
`keccak256(keccak256(rlp(unsigned)))`, since `crypto.sign` hashes the
sighash again); no `ChainIdRequired` error path exists in the code. -/
theorem claim_C8 (kec : Bytes → Bytes) (sh : Bytes → Nat × Nat × Nat)
    (t : Tx.UnsignedEthTx) (b : Bytes) (_h0 : t.chainId = 0)
    (hs : t.serialize = .ok b) :
    t.sign kec sh = .ok
      { nonce := t.nonce, gasPrice := t.gasPrice, gas := t.gas,
        toAddr := t.toAddr, value := t.value, data := t.data,
        v := (sh (kec (kec b))).1, r := (sh (kec (kec b))).2.1,
        s := (sh (kec (kec b))).2.2 } := by
  simp only [Tx.UnsignedEthTx.sign, Tx.UnsignedEthTx.getSignature,
    Tx.UnsignedEthTx.sighash, Tx.cryptoSign, hs, Except.map]
  rfl

/-- Witness for C8 at a concrete zero-chainId transaction and mock
adapter: signing succeeds. -/
theorem claim_C8_witness :
    Tx.UnsignedEthTx.sign mockKec mockSigHash sampleUnsigned0 = .ok
      { nonce := 9, gasPrice := 20000000000, gas := 21000,
        toAddr := List.replicate 20 0x35, value := 1000000000000000000,
        data := [], v := 37, r := 1, s := 2 } := by
  exact claim_C8 mockKec mockSigHash sampleUnsigned0
    ((Tx.UnsignedEthTx.serialize sampleUnsigned0).toOption.getD []) rfl rfl

/-- C8 counterexample to the claim as stated: signing a transaction
whose `chainId` is zero does not fail — it returns a signed
transaction. -/
theorem claim_C8_counterexample :
    sampleUnsigned0.chainId = 0 ∧
    (Tx.UnsignedEthTx.sign mockKec mockSigHash sampleUnsigned0).isOk = true := by
  exact ⟨rfl, rfl⟩

theorem encodeUintV_neg {i : Int} (h : i < 0) :
    ABI.encodeUintV (.vInt i) = .error .abiEncoding := by
  simp [ABI.encodeUintV, h]

theorem encodeUintV_big {i : Int} (h : 2 ^ 256 ≤ i) :
    ABI.encodeUintV (.vInt i) = .error .overflow := by
  have h0 : (0 : Int) < 2 ^ 256 := by positivity
  simp only [ABI.encodeUintV]
  rw [if_neg (by linarith), if_pos h]

theorem encodeUintV_ok {i : Int} (h0 : 0 ≤ i) (h : i < 2 ^ 256) :
    ABI.encodeUintV (.vInt i) = .ok (natToBe 32 i.toNat) := by
  simp only [ABI.encodeUintV]
  rw [if_neg (by linarith), if_neg (by linarith)]

/-- C4 (amended): `bytes0` through `bytes31` round-trip on byte strings
of exactly the declared length; `bytes32` and `bytes33` are rejected by
`encode` with a `ValueError` (`encode`'s guard is
`int(type_str[5:]) < 32`, so `bytes32` falls through to the unknown-type
branch). -/
theorem claim_C4 :
    (∀ (k : Nat) (b : Bytes), k ≤ 31 → b.length = k →
      (do
        let (h, _) ← ABI.encodeOne (.fixedBytes k) (.vBytes b)
        ABI.decodeOne (.fixedBytes k) h) = .ok (.vBytes b)) ∧
    (∀ v, ABI.encodeOne (.fixedBytes 32) v = .error .valueError) ∧
    (∀ v, ABI.encodeOne (.fixedBytes 33) v = .error .valueError) := by
  refine ⟨?_, ?_, ?_⟩
  · intro k b hk hb
    have hk32 : k < 32 := by omega
    have hmod : b.length % 32 = k := by rw [hb]; exact Nat.mod_eq_of_lt (by omega)
    have hlen : (b ++ List.replicate (32 - b.length % 32) 0).length = 32 := by
      simp [hmod]; omega
    have htake32 : List.take 32 (b ++ List.replicate (32 - b.length % 32) 0)
        = b ++ List.replicate (32 - b.length % 32) 0 :=
      List.take_of_length_le (le_of_eq hlen)
    have htakek : (b ++ List.replicate (32 - b.length % 32) 0).take k = b := by
      conv_lhs => rw [← hb]
      exact List.take_left b _
    simp [ABI.encodeOne, ABI.tdepth, ABI.encodeF, ABI.encodeFixedBytesV,
      hk32, if_neg (by omega : ¬ 32 < b.length),
      ABI.decodeOne, ABI.decodeSingleF, ABI.decodeFixedBytesW,
      hlen, htake32, htakek]
  · intro v
    simp [ABI.encodeOne, ABI.tdepth, ABI.encodeF]
  · intro v
    simp [ABI.encodeOne, ABI.tdepth, ABI.encodeF]

/-- Witness for C4 at `bytes4` with a 4-byte value. -/
theorem claim_C4_witness :
    (do
      let (h, _) ← ABI.encodeOne (.fixedBytes 4) (.vBytes [1, 2, 3, 4])
      ABI.decodeOne (.fixedBytes 4) h) = .ok (.vBytes [1, 2, 3, 4]) :=
  claim_C4.1 4 [1, 2, 3, 4] (by decide) rfl

/-- C4 counterexample to the claim as stated: `bytes32` does not
round-trip — encoding under it is rejected outright. -/
theorem claim_C4_counterexample :
    (do
      let (h, _) ← ABI.encodeOne (.fixedBytes 32) (.vBytes [])
      ABI.decodeOne (.fixedBytes 32) h) = .error .valueError := by
  exact rfl

/-- C5 (amended): `_encode_uint` rejects negatives (`ABIEncodingError`)
and values at or above `2^256` (`OverflowError` from `to_bytes`), and
returns the 32-byte big-endian form for any value in `[0, 2^256)` —
regardless of the declared width `N`, which `encode` never checks.
`uint256` max encodes to 32 `0xFF` bytes and `2^256` is rejected. -/
theorem claim_C5 :
    (∀ (n : Nat) (i : Int), i < 0 →
      ABI.encodeOne (.uint n) (.vInt i) = .error .abiEncoding) ∧
    (∀ (n : Nat) (i : Int), 2 ^ 256 ≤ i →
      ABI.encodeOne (.uint n) (.vInt i) = .error .overflow) ∧
    (∀ (n : Nat) (i : Int), 0 ≤ i → i < 2 ^ 256 →
      ABI.encodeOne (.uint n) (.vInt i) = .ok (natToBe 32 i.toNat, [])) ∧
    ABI.encodeOne (.uint 256) (.vInt (2 ^ 256 - 1))
      = .ok (List.replicate 32 255, []) ∧
    ABI.encodeOne (.uint 256) (.vInt (2 ^ 256)) = .error .overflow := by
  refine ⟨?_, ?_, ?_, by exact rfl, by exact rfl⟩
  · intro n i hi
    simp only [ABI.encodeOne, ABI.tdepth]
    simp [ABI.encodeF, encodeUintV_neg hi]
  · intro n i hi
    simp only [ABI.encodeOne, ABI.tdepth]
    simp [ABI.encodeF, encodeUintV_big hi]
  · intro n i h0 hi
    simp only [ABI.encodeOne, ABI.tdepth]
    simp [ABI.encodeF, encodeUintV_ok h0 hi]

/-- Witness for C5's universally quantified parts at `uint8` / 5. -/
theorem claim_C5_witness :
    ABI.encodeOne (.uint 8) (.vInt 5) = .ok (natToBe 32 5, []) :=
  claim_C5.2.2.1 8 5 (by decide) (by decide)

/-- C5 counterexample to the claim as stated: `uint8` of 256 (a value
`≥ 2^8`) is not rejected — the encoder performs no width check. -/
theorem claim_C5_counterexample :
    (2 : Int) ^ 8 ≤ 256 ∧
    ABI.encodeOne (.uint 8) (.vInt 256) = .ok (natToBe 32 256, []) := by
  exact ⟨by norm_num, rfl⟩

/-- C7 (amended): the tail produced for a `bytes` value of length `L`
is the length word followed by the payload padded with exactly
`32 - (L % 32)` zero bytes — a full extra zero word when `L` is already
a multiple of 32 (including `L = 0`) — for a total of
`1 + (⌊L/32⌋ + 1)` words, and `_slots_to_encode` reports that same
count. -/
theorem claim_C7 (b : Bytes) (e : Bytes)
    (he : ABI.encodeDynamicBytesV (.vBytes b) = .ok e) :
    e = natToBe 32 b.length ++ (b ++ List.replicate (32 - b.length % 32) 0) ∧
    e.length = 32 * (2 + b.length / 32) ∧
    ABI.slotsF 1 .bytes (.vBytes b) = .ok (1, 2 + b.length / 32) := by
  have hee : e = natToBe 32 b.length ++ (b ++ List.replicate (32 - b.length % 32) 0) := by
    by_cases hc : 2 ^ 256 ≤ (b.length : Int)
    · simp [ABI.encodeDynamicBytesV, ABI.encodeFixedBytesV,
        encodeUintV_big hc] at he
    · push_neg at hc
      simp [ABI.encodeDynamicBytesV, ABI.encodeFixedBytesV,
        encodeUintV_ok (by positivity) hc] at he
      rw [← he]
  have hpad : b.length + (32 - b.length % 32) = 32 * (b.length / 32) + 32 := by
    omega
  have hlen2 : e.length = 32 * (2 + b.length / 32) := by
    rw [hee]
    simp only [List.length_append, natToBe_length, List.length_replicate]
    omega
  refine ⟨hee, hlen2, ?_⟩
  have h32 : e.length / 32 = 2 + b.length / 32 := by omega
  simp only [ABI.slotsF, he, okBind, h32]

/-- Witness for C7 at a 1-byte value. -/
theorem claim_C7_witness :
    (natToBe 32 1 ++ ([7] ++ List.replicate 31 0)).length
      = 32 * (2 + List.length [7] / 32) :=
  (claim_C7 [7] (natToBe 32 1 ++ ([7] ++ List.replicate 31 0)) rfl).2.1

/-- C7 counterexample to the claim as stated: a 32-byte payload is
padded with a full extra zero word, so its tail occupies 3 words
(96 bytes), not the claimed `1 + ceil(32/32) = 2` words. -/
theorem claim_C7_counterexample :
    (ABI.encodeDynamicBytesV (.vBytes (List.replicate 32 1))).map List.length
      = .ok 96 ∧ (96 : Nat) ≠ 32 * (1 + 1) := by
  exact ⟨rfl, by decide⟩

/-- C3: evaluation at the failing input.  For a byte string of length
`256^7` the encoder emits an 8-byte length prefix under tag
`0xb7 + 55 + 8 = 0xbf`, but `_decode_length`'s long-bytes branch only
accepts tags up to `0xb7 + 7 = 0xbe`; `0xbf` falls into the short-list
branch with payload length `0xbf - 0xc0 = -1`, so decoding returns the
empty *list* instead of the original byte string — the decoder cannot
parse what the encoder produced, and re-encoding the decoded value
yields `0xc0`, not the original blob. -/
theorem claim_C3 :
    RLP.encode (.bytes (List.replicate (256 ^ 7) 0)) =
      .ok (0xbf :: ([1, 0, 0, 0, 0, 0, 0, 0] ++ List.replicate (256 ^ 7) 0)) ∧
    RLP.decode (0xbf :: ([1, 0, 0, 0, 0, 0, 0, 0] ++ List.replicate (256 ^ 7) 0)) =
      .ok (.list []) ∧
    RLP.encode (.list []) = .ok [0xc0] := by
  have hlen : (List.replicate (256 ^ 7) (0 : Nat)).length = 256 ^ 7 :=
    List.length_replicate _ _
  have hmin : RLP.minBe (256 ^ 7) = [1, 0, 0, 0, 0, 0, 0, 0] := by rfl
  refine ⟨?_, ?_, rfl⟩
  · simp only [RLP.encode, hlen, RLP.encodeLength, hmin]
    rw [if_neg (by norm_num), if_neg (by norm_num), if_neg (by norm_num)]
    simp only [okBind, List.length_cons, List.length_nil, List.cons_append]
  · have key : ∀ (f : Nat) (rest : Bytes),
        RLP.decodeF (f + 2) (0xbf :: rest) = .ok (.list []) := by
      intro f rest
      simp only [RLP.decodeF, RLP.decodeLength]
      rw [if_neg (by norm_num), if_neg (by norm_num), if_neg (by norm_num),
        if_pos (by norm_num)]
      simp only [okBind]
      rw [show (0xbf - 0xc0 : Nat) = 0 from rfl]
      simp only [List.take_zero, Bool.false_eq_true, if_false,
        RLP.decodeListF, mapOk]
    simp only [RLP.decode]
    exact key _ _

theorem findResult_append {α : Type} (pre post : List (String × α)) (v : α)
    (h : ∀ kv ∈ pre, kv.1 ≠ "result") :
    (pre ++ ("result", v) :: post).find? (fun kv => kv.1 == "result")
      = some ("result", v) := by
  induction pre with
  | nil => simp [List.find?]
  | cons kv rest ih =>
      have hne : ¬ (kv.1 == "result") = true := by
        simpa using h kv (by simp)
      simp only [List.cons_append, List.find?_cons, hne, if_false]
      exact ih (fun kv' hkv' => h kv' (by simp [hkv']))

/-- C9 (amended): the HTTP `_RPC` fails with a transport error carrying
the status for every response whose status is not exactly 200 (the
source tests `resp.status != 200`, not 2xx membership); for a 200
response it returns the `result` field if present and the whole payload
otherwise. -/
theorem claim_C9 :
    (∀ (status : Nat) (j : RPC.Json), status ≠ 200 →
      RPC.httpHandle status j = .error (.transport status)) ∧
    (∀ (pre post : List (String × RPC.Json)) (v : RPC.Json),
      (∀ kv ∈ pre, kv.1 ≠ "result") →
      RPC.httpHandle 200 (.jObj (pre ++ ("result", v) :: post)) = .ok v) ∧
    (∀ kvs : List (String × RPC.Json), (∀ kv ∈ kvs, kv.1 ≠ "result") →
      RPC.httpHandle 200 (.jObj kvs) = .ok (.jObj kvs)) := by
  refine ⟨?_, ?_, ?_⟩
  · intro status j h
    simp [RPC.httpHandle, h]
  · intro pre post v hpre
    have hany : ((pre ++ ("result", v) :: post).any
        (fun kv => kv.1 == "result")) = true := by
      simp [List.any_append]
    simp [RPC.httpHandle, RPC.containsResult, RPC.getResultItem, hany,
      findResult_append pre post v hpre]
  · intro kvs h
    have hany : (kvs.any (fun kv => kv.1 == "result")) = false := by
      simp only [List.any_eq_false]
      intro kv hkv
      simpa using h kv hkv
    simp [RPC.httpHandle, RPC.containsResult, hany]

/-- Witness for C9 at a concrete 200 response with an `id` and a
`result` field. -/
theorem claim_C9_witness :
    RPC.httpHandle 200 (.jObj [("id", .jNum 1), ("result", .jStr "0x0")])
      = .ok (.jStr "0x0") :=
  claim_C9.2.1 [("id", .jNum 1)] [] (.jStr "0x0") (by simp)

/-- C9 counterexample to the claim as stated: 201 is a 2xx status, and
its payload carries a `result` field, yet the call fails with the
transport error — the source accepts only status 200. -/
theorem claim_C9_counterexample :
    (200 ≤ 201 ∧ 201 < 300) ∧
    RPC.httpHandle 201 (.jObj [("result", .jStr "ok")])
      = .error (.transport 201) := by
  exact ⟨by decide, rfl⟩

theorem dictUpd_mem (d : List (Nat × RPC.RPCRequest)) (k : Nat)
    (v : RPC.RPCRequest) : (k, v) ∈ RPC.dictUpd d k v := by
  unfold RPC.dictUpd
  split
  · next hany =>
      obtain ⟨kv, hkv, hk⟩ := List.any_eq_true.mp hany
      have hmem := List.mem_map_of_mem
        (fun kv => if kv.1 == k then (k, v) else kv) hkv
      simpa [hk] using hmem
  · exact List.mem_append_right _ (by simp)

theorem dictUpd_ne_nil (d : List (Nat × RPC.RPCRequest)) (k : Nat)
    (v : RPC.RPCRequest) : RPC.dictUpd d k v ≠ [] := by
  unfold RPC.dictUpd
  split
  · next hany =>
      intro hcon
      obtain ⟨kv, hkv, -⟩ := List.any_eq_true.mp hany
      have := List.mem_map_of_mem (fun kv => if kv.1 == k then (k, v) else kv) hkv
      rw [hcon] at this
      exact absurd this (List.not_mem_nil _)
  · simp

/-- C10: `_inflight` and `_subscriptions` are class attributes holding
dictionaries created once at class-definition time, and no constructor
ever assigns instance attributes of those names, so every `WSRPC`
instance reads and mutates the same two process-wide dicts: a request
registered through instance `a` (and a subscription registered through
`a`) shows up in the pending set and subscription list that instance
`b` reports via `get_pending`. -/
theorem claim_C10 (c : RPC.ClassState) (a b : RPC.WSRPCInst)
    (method subId : String) (params sparams queue : List RPC.Json)
    (ha : a.instInflight = none) (ha2 : a.instSubs = none)
    (hb : b.instInflight = none) (hb2 : b.instSubs = none)
    (hbc : b.connected = false) :
    ∃ nid pend subsL,
      RPC.getPending
        (RPC.subRegister (RPC.rpcRegister c a method params).1 a subId
          sparams queue).1 b = .ok (nid, pend, subsL) ∧
      ({ method := method, params := params, futDone := false } :
        RPC.RPCRequest) ∈ pend ∧
      ({ method := "eth_subscribe", params := sparams, queue := queue } :
        RPC.RPCSub) ∈ subsL := by
  set v : RPC.RPCRequest := { method := method, params := params, futDone := false }
  have hreg : (RPC.rpcRegister c a method params).1
      = { c with inflight := RPC.dictUpd c.inflight a.nextId v } := by
    simp [RPC.rpcRegister, RPC.setInflightEntry, ha, v]
  set sv : RPC.RPCSub :=
    { method := "eth_subscribe", params := sparams, queue := queue }
  have hreg2 : (RPC.subRegister (RPC.rpcRegister c a method params).1 a subId
      sparams queue).1
      = { inflight := RPC.dictUpd c.inflight a.nextId v,
          subs := RPC.dictUpdS c.subs subId sv } := by
    rw [hreg]
    simp [RPC.subRegister, ha2, sv]
  rw [hreg2]
  have hne := dictUpd_ne_nil c.inflight a.nextId v
  rw [RPC.getPending]
  rw [if_neg (by rw [hbc]; exact Bool.false_ne_true)]
  have hinf : RPC.getInflight
      { inflight := RPC.dictUpd c.inflight a.nextId v,
        subs := RPC.dictUpdS c.subs subId sv } b
      = RPC.dictUpd c.inflight a.nextId v := by
    simp [RPC.getInflight, hb]
  have hsub : RPC.getSubs
      { inflight := RPC.dictUpd c.inflight a.nextId v,
        subs := RPC.dictUpdS c.subs subId sv } b
      = RPC.dictUpdS c.subs subId sv := by
    simp [RPC.getSubs, hb2]
  rw [hinf, hsub]
  match hm : RPC.dictUpd c.inflight a.nextId v with
  | [] => exact absurd hm hne
  | x :: xs =>
      refine ⟨_, _, _, rfl, ?_, ?_⟩
      · have hmem : (a.nextId, v) ∈ x :: xs := hm ▸ dictUpd_mem c.inflight a.nextId v
        refine List.mem_map.mpr ⟨(a.nextId, v), ?_, rfl⟩
        exact List.mem_filter.mpr ⟨hmem, by simp [v]⟩
      · refine List.mem_map.mpr ⟨(subId, sv), ?_, rfl⟩
        -- membership in the updated subscription dict
        unfold RPC.dictUpdS
        split
        · next hany =>
            obtain ⟨kv, hkv, hk⟩ := List.any_eq_true.mp hany
            have hmem := List.mem_map_of_mem
              (fun kv => if kv.1 == subId then (subId, sv) else kv) hkv
            simpa [hk] using hmem
        · exact List.mem_append_right _ (by simp)

/-- Witness for C10: two fresh instances over an empty class state; the
request and subscription registered through the first are reported by
the second. -/
theorem claim_C10_witness :
    ∃ nid pend subsL,
      RPC.getPending
        (RPC.subRegister
          (RPC.rpcRegister ⟨[], []⟩ (RPC.WSRPCInst.init 0) "eth_getLogs" []).1
          (RPC.WSRPCInst.init 0) "0xabc" [] []).1
        (RPC.WSRPCInst.init 5) = .ok (nid, pend, subsL) ∧
      ({ method := "eth_getLogs", params := [], futDone := false } :
        RPC.RPCRequest) ∈ pend ∧
      ({ method := "eth_subscribe", params := [], queue := [] } :
        RPC.RPCSub) ∈ subsL :=
  claim_C10 ⟨[], []⟩ (RPC.WSRPCInst.init 0) (RPC.WSRPCInst.init 5)
    "eth_getLogs" "0xabc" [] [] [] rfl rfl rfl rfl rfl

/-! ### Infrastructure lemmas for the ABI round-trip (C1) -/

theorem bindOkInv {α β : Type} {e : Except Err α} {f : α → Except Err β} {r : β}
    (h : (e >>= f) = .ok r) : ∃ a, e = .ok a ∧ f a = .ok r := by
  cases e with
  | ok a => exact ⟨a, rfl, by simpa using h⟩
  | error e => simp at h

theorem mapME_ok_forall2 {A B : Type} {g : A → Except Err B} :
    ∀ {l : List A} {r : List B}, ABI.mapME g l = .ok r →
      List.Forall₂ (fun a b => g a = .ok b) l r := by
  intro l
  induction l with
  | nil =>
      intro r h
      simp only [ABI.mapME] at h
      cases h
      exact List.Forall₂.nil
  | cons x xs ih =>
      intro r h
      simp only [ABI.mapME] at h
      obtain ⟨b, hb, h2⟩ := bindOkInv h
      obtain ⟨bs, hbs, h3⟩ := bindOkInv h2
      cases h3
      exact List.Forall₂.cons hb (ih hbs)

theorem mapME_of_forall2 {A B : Type} {g : A → Except Err B} :
    ∀ {l : List A} {r : List B},
      List.Forall₂ (fun a b => g a = .ok b) l r → ABI.mapME g l = .ok r := by
  intro l r h
  induction h with
  | nil => rfl
  | cons hab _ ih =>
      simp only [ABI.mapME, hab, okBind, ih]

theorem chunksOf_nil : ABI.chunksOf 32 [] = [] := rfl

theorem chunksOf_step {b : Bytes} (hb : b ≠ []) :
    ABI.chunksOf 32 b = b.take 32 :: ABI.chunksOf 32 (b.drop 32) := by
  have hb1 : 1 ≤ b.length := List.length_pos.mpr hb
  have hc : (b.length + 32 - 1) / 32 = (((b.drop 32).length + 32 - 1) / 32) + 1 := by
    simp only [List.length_drop]
    omega
  simp only [ABI.chunksOf, hc, List.range_succ_eq_map, List.map_cons, List.map_map]
  congr 1
  apply List.map_congr_left
  intro a _
  simp only [Function.comp_apply]
  rw [List.drop_drop]
  congr 2
  omega

theorem chunks_cons32 {w : Bytes} (r : Bytes) (hw : w.length = 32) :
    ABI.chunksOf 32 (w ++ r) = w :: ABI.chunksOf 32 r := by
  have hne : w ++ r ≠ [] := by
    intro hcon
    have := congrArg List.length hcon
    simp [hw] at this
  rw [chunksOf_step hne]
  congr 1
  · rw [← hw]
    exact List.take_left w r
  · congr 1
    rw [← hw]
    exact List.drop_left w r

theorem flatten_chunksOf (b : Bytes) : (ABI.chunksOf 32 b).flatten = b := by
  by_cases hb : b = []
  · subst hb; rfl
  · have hlt : (b.drop 32).length < b.length := by
      have : 1 ≤ b.length := List.length_pos.mpr hb
      simp only [List.length_drop]
      omega
    rw [chunksOf_step hb]
    simp only [List.flatten_cons]
    rw [flatten_chunksOf (b.drop 32)]
    exact List.take_append_drop 32 b
termination_by b.length

theorem chunks_words {ws : List Bytes} (h : ∀ w ∈ ws, w.length = 32) (r : Bytes) :
    ABI.chunksOf 32 (ws.flatten ++ r) = ws ++ ABI.chunksOf 32 r := by
  induction ws with
  | nil => simp
  | cons w rest ih =>
      simp only [List.flatten_cons, List.append_assoc, List.cons_append]
      rw [chunks_cons32 _ (h w (by simp))]
      rw [ih (fun w' hw' => h w' (by simp [hw']))]

theorem natToBe_mem_lt (l n : Nat) : ∀ c ∈ natToBe l n, c < 256 := by
  induction l generalizing n with
  | zero => intro c hc; simp [natToBe] at hc
  | succ l ih =>
      intro c hc
      simp only [natToBe, List.mem_append, List.mem_singleton] at hc
      rcases hc with hc | hc
      · exact ih (n / 256) c hc
      · subst hc; exact Nat.mod_lt _ (by norm_num)

theorem natToBe_beToNat_eq {b : Bytes} (h : ∀ c ∈ b, c < 256) :
    natToBe b.length (beToNat b) = b := by
  induction b using List.reverseRecOn with
  | nil => rfl
  | append_singleton a c ih =>
      have hc : c < 256 := h c (by simp)
      have hb : beToNat (a ++ [c]) = beToNat a * 256 + c := by
        rw [beToNat_append]
        simp [beToNat]
      simp only [List.length_append, List.length_cons, List.length_nil, natToBe, hb]
      have h1 : (beToNat a * 256 + c) / 256 = beToNat a := by omega
      have h2 : (beToNat a * 256 + c) % 256 = c := by omega
      rw [h1, h2, ih (fun c' hc' => h c' (by simp [hc']))]

theorem beToNat_lt {b : Bytes} (h : ∀ c ∈ b, c < 256) :
    beToNat b < 256 ^ b.length := by
  induction b using List.reverseRecOn with
  | nil => simp [beToNat]
  | append_singleton a c ih =>
      have hc : c < 256 := h c (by simp)
      have ha := ih (fun c' hc' => h c' (by simp [hc']))
      have hb : beToNat (a ++ [c]) = beToNat a * 256 + c := by
        rw [beToNat_append]
        simp [beToNat]
      rw [hb]
      simp only [List.length_append, List.length_cons, List.length_nil]
      rw [pow_succ]
      have h1 : beToNat a * 256 + c < (beToNat a + 1) * 256 := by omega
      have h2 : (beToNat a + 1) * 256 ≤ 256 ^ a.length * 256 :=
        Nat.mul_le_mul_right _ ha
      exact lt_of_lt_of_le h1 h2

theorem natToBe_split (a b n : Nat) :
    natToBe (a + b) n = natToBe a (n / 256 ^ b) ++ natToBe b (n % 256 ^ b) := by
  induction b generalizing n with
  | zero =>
      simp [natToBe, Nat.mod_one]
  | succ b ih =>
      have hstep : a + (b + 1) = (a + b) + 1 := by omega
      rw [hstep]
      simp only [natToBe]
      rw [ih (n / 256)]
      have h1 : n / 256 / 256 ^ b = n / 256 ^ (b + 1) := by
        rw [Nat.div_div_eq_div_mul]
        congr 1
        ring
      have h2 : n / 256 % 256 ^ b = n % 256 ^ (b + 1) / 256 := by
        rw [Nat.pow_succ']
        exact (Nat.mod_mul_right_div_self n 256 (256 ^ b)).symm
      have h3 : n % 256 ^ (b + 1) % 256 = n % 256 := by
        apply Nat.mod_mod_of_dvd
        exact dvd_pow_self 256 (by omega)
      rw [h1, h2, h3, List.append_assoc]

theorem hexDigitVal_hexChar {d : Nat} (h : d < 16) :
    ABI.hexDigitVal (ABI.hexChar d) = .ok d := by
  by_cases hd : d < 10
  · simp only [ABI.hexChar, if_pos hd, ABI.hexDigitVal]
    rw [if_pos (by omega)]
    congr 1
    omega
  · simp only [ABI.hexChar, if_neg hd, ABI.hexDigitVal]
    rw [if_neg (by omega), if_pos (by omega)]
    congr 1
    omega

theorem foldlM_hex (h : Bytes) (acc : Nat) (hb : ∀ c ∈ h, c < 256) :
    (ABI.hexOfBytes h).foldlM
        (fun a c => do Except.ok (a * 16 + (← ABI.hexDigitVal c))) acc
      = Except.ok (acc * 256 ^ h.length + beToNat h) := by
  induction h generalizing acc with
  | nil =>
      simp [ABI.hexOfBytes, beToNat]
      rfl
  | cons c rest ih =>
      have hc : c < 256 := hb c (by simp)
      have hrest : ∀ x ∈ rest, x < 256 := fun x hx => hb x (by simp [hx])
      have hx : ABI.hexOfBytes (c :: rest)
          = ABI.hexChar (c / 16) :: ABI.hexChar (c % 16) :: ABI.hexOfBytes rest := by
        simp [ABI.hexOfBytes]
      rw [hx]
      simp only [List.foldlM_cons, hexDigitVal_hexChar (show c / 16 < 16 by omega),
        hexDigitVal_hexChar (show c % 16 < 16 by omega), okBind]
      rw [show (acc * 16 + c / 16) * 16 + c % 16 = acc * 256 + c by omega]
      rw [ih (acc * 256 + c) hrest]
      have hb2 : beToNat (c :: rest) = c * 256 ^ rest.length + beToNat rest := by
        rw [show (c :: rest) = [c] ++ rest from rfl, beToNat_append]
        simp [beToNat]
      congr 1
      rw [hb2]
      simp only [List.length_cons, pow_succ]
      ring

theorem parseHex16_hex {h : Bytes} (hb : ∀ c ∈ h, c < 256) (hne : h ≠ []) :
    ABI.parseHex16 (48 :: 120 :: ABI.hexOfBytes h) = .ok (beToNat h) := by
  have hne2 : ABI.hexOfBytes h ≠ [] := by
    cases h with
    | nil => exact absurd rfl hne
    | cons c rest => simp [ABI.hexOfBytes]
  have hstep : ABI.parseHex16 (48 :: 120 :: ABI.hexOfBytes h)
      = if ABI.hexOfBytes h = [] then .error .valueError
        else (ABI.hexOfBytes h).foldlM
          (fun a c => do Except.ok (a * 16 + (← ABI.hexDigitVal c))) 0 := rfl
  rw [hstep, if_neg hne2, foldlM_hex h 0 hb]
  norm_num

theorem encodeUintV_int_inv {i : Int} {hd : Bytes}
    (h : ABI.encodeUintV (.vInt i) = .ok hd) :
    0 ≤ i ∧ i < 2 ^ 256 ∧ hd = natToBe 32 i.toNat := by
  simp only [ABI.encodeUintV] at h
  split_ifs at h with h1 h2
  exact ⟨not_lt.mp h1, not_le.mp h2, (Except.ok.inj h).symm⟩

theorem encodeIntV_int_inv {i : Int} {hd : Bytes}
    (h : ABI.encodeIntV (.vInt i) = .ok hd) :
    -(2 ^ 255) ≤ i ∧ i < 2 ^ 255 ∧ hd = natToBe 32 (i.emod (2 ^ 256)).toNat := by
  simp only [ABI.encodeIntV] at h
  split_ifs at h with h1
  have h2 := not_or.mp h1
  exact ⟨not_lt.mp h2.1, not_le.mp h2.2, (Except.ok.inj h).symm⟩

theorem encodeOffset_inv {hS tp : Nat} {w : Bytes}
    (h : ABI.encodeOffset hS tp = .ok w) :
    w = natToBe 32 ((tp + hS) * 32) ∧ (tp + hS) * 32 < 2 ^ 256 := by
  simp only [ABI.encodeOffset] at h
  obtain ⟨h0, hlt, heq⟩ := encodeUintV_int_inv h
  constructor
  · rw [heq]
    congr 1
  · omega

theorem encodeDynBytes_inv {b e : Bytes}
    (h : ABI.encodeDynamicBytesV (.vBytes b) = .ok e) :
    e = natToBe 32 b.length ++ (b ++ List.replicate (32 - b.length % 32) 0)
      ∧ b.length < 2 ^ 256 := by
  simp only [ABI.encodeDynamicBytesV, ABI.encodeFixedBytesV, okBind] at h
  obtain ⟨lw, hu, h2⟩ := bindOkInv h
  obtain ⟨h0, hlt, heq⟩ := encodeUintV_int_inv hu
  have hlw : lw = natToBe 32 b.length := by
    rw [heq]
    congr 1
  refine ⟨?_, by omega⟩
  rw [← Except.ok.inj h2, hlw]

theorem decodeDynBytes_of_enc {b junk : Bytes} (hlt : b.length < 2 ^ 256) :
    ABI.decodeDynamicBytes
      ((natToBe 32 b.length ++ (b ++ List.replicate (32 - b.length % 32) 0)) ++ junk)
      = .ok b := by
  have hL : (natToBe 32 b.length).length = 32 := natToBe_length 32 _
  rw [List.append_assoc]
  simp only [ABI.decodeDynamicBytes]
  rw [List.take_left' hL, List.drop_left' hL]
  simp only [ABI.decodeUintW, hL, if_pos]
  rw [beToNat_natToBe 32 b.length (by norm_num at hlt ⊢; omega)]
  rw [okBind, List.append_assoc]
  exact congrArg Except.ok (List.take_left b _)

theorem pow256_32 : (256 : Nat) ^ 32 = 2 ^ 256 := by norm_num

theorem take_all32 {b : Bytes} (h : b.length = 32) : b.take 32 = b :=
  List.take_of_length_le (le_of_eq h)

theorem uint_rt {i : Int} {hd : Bytes}
    (h : ABI.encodeUintV (.vInt i) = .ok hd) (n g : Nat) :
    hd.length = 32 ∧ ABI.decodeSingleF (g + 1) (.uint n) hd = .ok (.vInt i) := by
  obtain ⟨h0, hlt, heq⟩ := encodeUintV_int_inv h
  have hl : hd.length = 32 := by rw [heq]; exact natToBe_length 32 _
  refine ⟨hl, ?_⟩
  simp only [ABI.decodeSingleF, ABI.decodeUintW, take_all32 hl, hl, if_pos, okBind]
  rw [heq, beToNat_natToBe 32 _ (by rw [pow256_32]; omega), Int.toNat_of_nonneg h0]

theorem sint_rt {i : Int} {hd : Bytes}
    (h : ABI.encodeIntV (.vInt i) = .ok hd) (n g : Nat) :
    hd.length = 32 ∧ ABI.decodeSingleF (g + 1) (.sint n) hd = .ok (.vInt i) := by
  obtain ⟨h0, hlt, heq⟩ := encodeIntV_int_inv h
  have hl : hd.length = 32 := by rw [heq]; exact natToBe_length 32 _
  refine ⟨hl, ?_⟩
  simp only [ABI.decodeSingleF, ABI.decodeIntW, take_all32 hl, hl, if_pos, okBind]
  have hmod : (0 : Int) ≤ i.emod (2 ^ 256) ∧ i.emod (2 ^ 256) < 2 ^ 256 :=
    ⟨Int.emod_nonneg i (by norm_num), Int.emod_lt_of_pos i (by norm_num)⟩
  rw [heq, beToNat_natToBe 32 _ (by rw [pow256_32]; omega)]
  have hcase : ((i.emod (2 ^ 256)).toNat : Int) = i.emod (2 ^ 256) :=
    Int.toNat_of_nonneg hmod.1
  have hval : i.emod (2 ^ 256) = if 0 ≤ i then i else i + 2 ^ 256 := by
    have h' : i % 2 ^ 256 = i.emod (2 ^ 256) := rfl
    split_ifs with hpos <;> (rw [← h']; omega)
  split_ifs with hsm
  · -- decoded as nonnegative: u < 2 ^ 255
    congr 1
    congr 1
    omega
  · congr 1
    congr 1
    omega

theorem bool_rt (b : Bool) (g : Nat) :
    (natToBe 32 (if b then 1 else 0)).length = 32 ∧
      ABI.decodeSingleF (g + 1) .bool (natToBe 32 (if b then 1 else 0))
        = .ok (.vBool b) := by
  refine ⟨natToBe_length 32 _, ?_⟩
  cases b with
  | false => simp only [ABI.decodeSingleF]; rfl
  | true => simp only [ABI.decodeSingleF]; rfl

theorem fixedBytes_rt {k : Nat} {b hd : Bytes} (hk : k ≤ 31) (hlen : b.length = k)
    (h : ABI.encodeFixedBytesV (.vBytes b) = .ok hd) (g : Nat) :
    hd.length = 32 ∧ ABI.decodeSingleF (g + 1) (.fixedBytes k) hd = .ok (.vBytes b) := by
  simp only [ABI.encodeFixedBytesV] at h
  have heq : hd = b ++ List.replicate (32 - b.length % 32) 0 := (Except.ok.inj h).symm
  have hl : hd.length = 32 := by
    rw [heq]
    simp only [List.length_append, List.length_replicate]
    omega
  refine ⟨hl, ?_⟩
  simp only [ABI.decodeSingleF, ABI.decodeFixedBytesW, take_all32 hl, hl, if_pos, okBind]
  rw [heq, ← hlen, List.take_left' rfl]

theorem address_rt {h hd : Bytes} (hl20 : h.length = 20) (hb : ∀ c ∈ h, c < 256)
    (he : ABI.encodeAddressV (.vStr (48 :: 120 :: ABI.hexOfBytes h)) = .ok hd) (g : Nat) :
    hd.length = 32 ∧ ABI.decodeSingleF (g + 1) .address hd
      = .ok (.vStr (48 :: 120 :: ABI.hexOfBytes h)) := by
  have hne : h ≠ [] := by intro hh; rw [hh] at hl20; simp at hl20
  simp only [ABI.encodeAddressV, parseHex16_hex hb hne, okBind] at he
  obtain ⟨h0, hlt, heq⟩ := encodeUintV_int_inv he
  have hlt2 : beToNat h < 256 ^ 20 := by
    have := beToNat_lt hb
    rwa [hl20] at this
  have hl : hd.length = 32 := by rw [heq]; exact natToBe_length 32 _
  refine ⟨hl, ?_⟩
  simp only [ABI.decodeSingleF, ABI.decodeAddressW, take_all32 hl, hl, if_pos]
  have htoNat : ((beToNat h : Int)).toNat = beToNat h := Int.toNat_natCast _
  have hsplit : natToBe 32 (beToNat h) = natToBe 12 0 ++ natToBe 20 (beToNat h) := by
    have h12 : (32 : Nat) = 12 + 20 := by norm_num
    rw [h12, natToBe_split 12 20, Nat.div_eq_of_lt hlt2, Nat.mod_eq_of_lt hlt2]
  have h20 : natToBe 20 (beToNat h) = h := by
    rw [← hl20]
    exact natToBe_beToNat_eq hb
  have hdrop : hd.drop 12 = h := by
    rw [heq, htoNat, hsplit, List.drop_left' (natToBe_length 12 0), h20]
  rw [hdrop]
  rfl

theorem scalar_rt {t : ABI.AbiType} {v : ABI.PyVal} {hd tl : Bytes} {f : Nat}
    (hs : ABI.isScalar t = true) (hwt : ABI.WT t v)
    (he : ABI.encodeF (f + 1) t v = .ok (hd, tl)) :
    tl = [] ∧ hd.length = 32 ∧ ∀ g, ABI.decodeSingleF (g + 1) t hd = .ok v := by
  cases hwt with
  | wtUint n i =>
      simp only [ABI.encodeF] at he
      obtain ⟨a, ha, h2⟩ := bindOkInv he
      obtain ⟨h3, h4⟩ := Prod.mk.inj (Except.ok.inj h2)
      subst h3; subst h4
      exact ⟨rfl, (uint_rt ha n 0).1, fun g => (uint_rt ha n g).2⟩
  | wtInt n i =>
      simp only [ABI.encodeF] at he
      obtain ⟨a, ha, h2⟩ := bindOkInv he
      obtain ⟨h3, h4⟩ := Prod.mk.inj (Except.ok.inj h2)
      subst h3; subst h4
      exact ⟨rfl, (sint_rt ha n 0).1, fun g => (sint_rt ha n g).2⟩
  | wtBool b =>
      simp only [ABI.encodeF] at he
      obtain ⟨h3, h4⟩ := Prod.mk.inj (Except.ok.inj he)
      subst h3; subst h4
      exact ⟨rfl, (bool_rt b 0).1, fun g => (bool_rt b g).2⟩
  | wtAddress h hl20 hb =>
      simp only [ABI.encodeF] at he
      obtain ⟨a, ha, h2⟩ := bindOkInv he
      obtain ⟨h3, h4⟩ := Prod.mk.inj (Except.ok.inj h2)
      subst h3; subst h4
      exact ⟨rfl, (address_rt hl20 hb ha 0).1, fun g => (address_rt hl20 hb ha g).2⟩
  | wtFixedBytes k b hk hlen =>
      simp only [ABI.encodeF] at he
      rw [if_pos (show k < 32 by omega)] at he
      rw [if_neg (show ¬ 32 < b.length by omega)] at he
      obtain ⟨a, ha, h2⟩ := bindOkInv he
      obtain ⟨h3, h4⟩ := Prod.mk.inj (Except.ok.inj h2)
      subst h3; subst h4
      exact ⟨rfl, (fixedBytes_rt hk hlen ha 0).1,
        fun g => (fixedBytes_rt hk hlen ha g).2⟩
  | wtBytes b => simp [ABI.isScalar] at hs
  | wtStr s => simp [ABI.isScalar] at hs
  | wtDynArr t l h => simp [ABI.isScalar] at hs
  | wtFixArr t n l hsc h => simp [ABI.isScalar] at hs

theorem slotAt_at (pre : List Bytes) (w : Bytes) (rest : List Bytes) :
    ABI.slotAt (pre ++ w :: rest) pre.length = .ok w := by
  induction pre with
  | nil => rfl
  | cons p ps ih =>
      simp only [List.cons_append, List.length_cons, ABI.slotAt, List.get?] at ih ⊢
      exact ih

theorem chunks_exact {b : Bytes} (h : 32 ∣ b.length) :
    (∀ w ∈ ABI.chunksOf 32 b, w.length = 32) ∧
      (ABI.chunksOf 32 b).length = b.length / 32 ∧
      (ABI.chunksOf 32 b).flatten = b := by
  by_cases hb : b = []
  · subst hb; simp [chunksOf_nil]
  · have hge : 32 ≤ b.length := by
      obtain ⟨k, hk⟩ := h
      have : b.length ≠ 0 := fun hc => hb (List.eq_nil_of_length_eq_zero hc)
      omega
    have hdvd : 32 ∣ (b.drop 32).length := by
      simp only [List.length_drop]
      obtain ⟨k, hk⟩ := h
      exact ⟨k - 1, by omega⟩
    have hlt : (b.drop 32).length < b.length := by
      simp only [List.length_drop]; omega
    obtain ⟨ih1, ih2, ih3⟩ := chunks_exact hdvd
    rw [chunksOf_step hb]
    refine ⟨?_, ?_, ?_⟩
    · intro w hw
      rcases List.mem_cons.mp hw with h1 | h2
      · rw [h1]; simp [List.length_take]; omega
      · exact ih1 w h2
    · simp only [List.length_cons, ih2, List.length_drop]
      omega
    · simp only [List.flatten_cons, ih3]
      exact List.take_append_drop 32 b
termination_by b.length

theorem scalar_not_dynamic {t : ABI.AbiType} (hs : ABI.isScalar t = true) :
    ABI.isDynamic t = false := by
  cases t <;> simp_all [ABI.isScalar, ABI.isDynamic, ABI.hasDynTok,
    ABI.hasStrTok, ABI.hasBytesArr]

theorem fixArr_scalar_not_dynamic {s : ABI.AbiType} (n : Nat)
    (hs : ABI.isScalar s = true) :
    ABI.isDynamic (.fixArr s n) = false := by
  cases s <;> simp_all [ABI.isScalar, ABI.isDynamic, ABI.hasDynTok,
    ABI.hasStrTok, ABI.hasBytesArr]

theorem slotsF_scalar {t : ABI.AbiType} (hs : ABI.isScalar t = true)
    (f : Nat) (v : ABI.PyVal) : ABI.slotsF (f + 1) t v = .ok (1, 0) := by
  cases t <;> first
    | rfl
    | simp_all [ABI.isScalar]

theorem decodeItems_words {g : Nat} {s : ABI.AbiType}
    (hnd : ABI.isDynamic s = false) :
    ∀ (ws : List Bytes) (l : List ABI.PyVal) (pre after : List Bytes),
      List.Forall₂ (fun w e => ABI.decodeSingleF g s w = .ok e) ws l →
      ABI.decodeItems (ABI.decodeSingleF g) (pre ++ ws ++ after) s
        pre.length ws.length = .ok l
  | [], [], pre, after, _ => rfl
  | w :: ws, e :: l, pre, after, .cons hwe hrest => by
      simp only [List.length_cons, ABI.decodeItems]
      have hsl : ABI.slotAt (pre ++ (w :: ws) ++ after) pre.length = .ok w := by
        rw [List.append_assoc, List.cons_append]
        exact slotAt_at pre w (ws ++ after)
      rw [hsl, okBind, if_pos (by simp [hnd]), hwe, okBind]
      have hrec := decodeItems_words hnd ws l (pre ++ [w]) after hrest
      simp only [List.append_assoc, List.cons_append, List.nil_append,
        List.length_append, List.length_cons, List.length_nil] at hrec
      rw [show pre.length + (0 + 1) = pre.length + 1 from by omega] at hrec
      simp only [List.append_assoc, List.cons_append]
      rw [hrec, okBind]

theorem forall2_mem_left {α β : Type} {R : α → β → Prop} :
    ∀ {xs : List α} {ys : List β}, List.Forall₂ R xs ys →
      ∀ x ∈ xs, ∃ y ∈ ys, R x y
  | _, _, .nil, x, hx => absurd hx (List.not_mem_nil x)
  | _, _, .cons h hrest, x, hx => by
      rcases List.mem_cons.mp hx with h1 | h2
      · subst h1; exact ⟨_, by simp, h⟩
      · obtain ⟨y, hy, hr⟩ := forall2_mem_left hrest x h2
        exact ⟨y, by simp [hy], hr⟩

set_option maxHeartbeats 1000000 in
theorem chain_facts {headSize : Nat} :
    ∀ (ps : List (ABI.AbiType × ABI.PyVal))
      (rs : List ((Nat × Nat) × (List Bytes × Bytes))) (tp : Nat),
      ABI.ChainDec headSize tp ps rs →
      ps.length = rs.length ∧
      (∀ w ∈ (rs.map (fun r => r.2.1)).flatten, w.length = 32) ∧
      (rs.map (fun r => r.2.1.length)).sum = ((rs.map Prod.fst).map Prod.fst).sum ∧
      ((rs.map (fun r => r.2.2)).flatten).length
        = 32 * ((rs.map Prod.fst).map Prod.snd).sum ∧
      ∃ als, ABI.mapME ABI.arrayLength (ps.map Prod.fst) = .ok als ∧
        ps.length + (als.map (fun a => a - 1)).sum
          = ((rs.map Prod.fst).map Prod.fst).sum
  | [], [], _, _ => by
      refine ⟨rfl, by simp, rfl, by simp, [], rfl, rfl⟩
  | [], _ :: _, _, h => by cases h
  | _ :: _, [], _, h => by cases h
  | (t, v) :: ps, (su, (hws, tl)) :: rs, tp, h => by
      obtain ⟨hcl, hrest⟩ := h
      obtain ⟨hlen, hw32, hsum1, hsum2, als, hals, hhead⟩ :=
        chain_facts ps rs _ hrest
      have hwlen : hws.length = su.1 ∧ tl.length = 32 * su.2 ∧
          (∀ w ∈ hws, w.length = 32) ∧
          ∃ alv, ABI.arrayLength t = .ok alv ∧ 1 + (alv - 1) = su.1 := by
        rcases hcl with ⟨hnd, hal, hsu, htl, w, hhws, hw, hdec⟩ |
          ⟨s, n, l, ht, hv, hndt, hnds, hal, hit, hn2, hsu, htl, hwsn, hf2⟩ |
          ⟨hdyn, hal, hsu1, hhws, hofflt, htll, hsu2, hdec⟩
        · refine ⟨by simp [hhws, hsu], by simp [htl, hsu], ?_, 0, hal, by simp [hsu]⟩
          intro w' hw'
          rw [hhws] at hw'
          rcases List.mem_singleton.mp hw' with rfl
          exact hw
        · refine ⟨by simp [hwsn, hsu], by simp [htl, hsu], ?_, n, hal,
            by simp [hsu]; omega⟩
          intro w' hw'
          obtain ⟨e, _, hre⟩ := forall2_mem_left hf2 w' hw'
          exact hre.1
        · refine ⟨by simp [hhws, hsu1], htll, ?_, 0, hal, by simp [hsu1]⟩
          intro w' hw'
          rw [hhws, List.mem_singleton] at hw'
          rw [hw']
          exact natToBe_length 32 _
      obtain ⟨hwl, htll2, hwords, alv, halv, halv2⟩ := hwlen
      refine ⟨by simp [hlen], ?_, ?_, ?_, alv :: als, ?_, ?_⟩
      · intro w' hw'
        simp only [List.map_cons, List.flatten_cons] at hw'
        rcases List.mem_append.mp hw' with h1 | h2
        · exact hwords w' h1
        · exact hw32 w' h2
      · simp only [List.map_cons, List.sum_cons, hwl, hsum1]
      · simp only [List.map_cons, List.flatten_cons, List.length_append,
          List.sum_cons, hsum2, htll2]
        omega
      · simp only [List.map_cons, ABI.mapME, halv, okBind, hals]
      · simp only [List.map_cons, List.sum_cons, List.length_cons]
        omega

theorem words_flatten_length : ∀ {ws : List Bytes},
    (∀ w ∈ ws, w.length = 32) → ws.flatten.length = 32 * ws.length
  | [], _ => rfl
  | w :: ws, h => by
      have hrec := words_flatten_length
        (fun w' hw' => h w' (List.mem_cons_of_mem w hw'))
      simp only [List.flatten_cons, List.length_append, List.length_cons,
        h w (List.mem_cons_self w ws), hrec]
      ring

theorem fixHeads_chain {headSize : Nat} :
    ∀ (ps : List (ABI.AbiType × ABI.PyVal)) (sus : List (Nat × Nat))
      (raws : List (Bytes × Bytes)) (items : List (Bytes × Bytes)) (tp : Nat),
      ps.length = sus.length → sus.length = raws.length →
      List.Forall₂ (fun (p : ABI.AbiType × ABI.PyVal)
          (sr : (Nat × Nat) × (Bytes × Bytes)) =>
          ABI.ItemRT p.1 p.2 sr.1 sr.2.1 sr.2.2) ps (sus.zip raws) →
      ABI.fixHeads headSize sus raws tp = .ok items →
      ∃ rs, ABI.ChainDec headSize tp ps rs ∧
        rs.map Prod.fst = sus ∧
        ((rs.map (fun r => r.2.1)).flatten).flatten = (items.map Prod.fst).flatten ∧
        rs.map (fun r => r.2.2) = items.map Prod.snd
  | [], [], [], items, tp => by
      intro _ _ _ hfix
      refine ⟨[], trivial, rfl, ?_, ?_⟩ <;>
        (rw [← Except.ok.inj hfix]; rfl)
  | [], [], _ :: _, _, _ => by intro _ h _ _; simp at h
  | [], _ :: _, _, _, _ => by intro h _ _ _; simp at h
  | _ :: _, [], _, _, _ => by intro h _ _ _; simp at h
  | _ :: _, _ :: _, [], _, _ => by intro _ h _ _; simp at h
  | p :: ps, su :: sus, raw :: raws, items, tp => by
      intro hl1 hl2 hf2 hfix
      simp only [List.length_cons] at hl1 hl2
      have hf2' := hf2
      rw [List.zip_cons_cons] at hf2'
      cases hf2' with
      | cons hitem hrest =>
      simp only [ABI.fixHeads] at hfix
      rcases hitem with ⟨hnd, hal, hsu, htl, hhdl, hdec⟩ |
        ⟨s, n, ws, l, ht, hv, hndt, hnds, hal, hit, hn2, hsu, htl, hhd, hwsn, hf2w⟩ |
        ⟨hdyn, hal, hsu1, hhd, htll, hsu2, hdec⟩
      · -- static scalar: head kept as is
        have hne : raw.1 ≠ [] := by
          intro hc; rw [hc] at hhdl; simp at hhdl
        rw [if_neg hne, okBind] at hfix
        obtain ⟨r, hr, hcons⟩ := bindOkInv hfix
        obtain ⟨rs', hchain', hfst, hflat, hsnd⟩ :=
          fixHeads_chain ps sus raws r (tp + su.2) (by omega) (by omega) hrest hr
        refine ⟨(su, ([raw.1], raw.2)) :: rs', ?_, ?_, ?_, ?_⟩
        · refine ⟨Or.inl ⟨hnd, hal, hsu, htl, raw.1, rfl, hhdl, hdec⟩, hchain'⟩
        · simp [hfst]
        · rw [← Except.ok.inj hcons]
          simp [hflat]
        · rw [← Except.ok.inj hcons]
          simp [hsnd, htl]
      · -- fixed array of scalars: head kept, split into its words
        have hws0 : ∀ w ∈ ws, w.length = 32 := by
          intro w hw
          obtain ⟨e, _, hre⟩ := forall2_mem_left hf2w w hw
          exact hre.1
        have hlenflat : raw.1.length = 32 * n := by
          rw [hhd, words_flatten_length hws0, hwsn]
        have hne : raw.1 ≠ [] := by
          intro hc
          rw [hc] at hlenflat
          simp at hlenflat
          omega
        rw [if_neg hne, okBind] at hfix
        obtain ⟨r, hr, hcons⟩ := bindOkInv hfix
        obtain ⟨rs', hchain', hfst, hflat, hsnd⟩ :=
          fixHeads_chain ps sus raws r (tp + su.2) (by omega) (by omega) hrest hr
        refine ⟨(su, (ws, raw.2)) :: rs', ?_, ?_, ?_, ?_⟩
        · exact ⟨Or.inr (Or.inl ⟨s, n, l, ht, hv, hndt, hnds, hal, hit, hn2,
            hsu, htl, hwsn, hf2w⟩), hchain'⟩
        · simp [hfst]
        · rw [← Except.ok.inj hcons]
          simp only [List.map_cons, List.flatten_cons, List.flatten_append,
            hflat, hhd]
          rw [hhd]
        · rw [← Except.ok.inj hcons]
          simp [hsnd, htl]
      · -- dynamic: head replaced by the offset word
        rw [hhd, if_pos rfl] at hfix
        obtain ⟨eh', hoff, hfix2⟩ := bindOkInv hfix
        obtain ⟨hw, hbound⟩ := encodeOffset_inv hoff
        obtain ⟨r, hr, hcons⟩ := bindOkInv hfix2
        obtain ⟨rs', hchain', hfst, hflat, hsnd⟩ :=
          fixHeads_chain ps sus raws r (tp + su.2) (by omega) (by omega) hrest hr
        refine ⟨(su, ([eh'], raw.2)) :: rs', ?_, ?_, ?_, ?_⟩
        · refine ⟨Or.inr (Or.inr ⟨hdyn, hal, hsu1, by rw [hw],
            hbound, htll, hsu2, hdec⟩), hchain'⟩
        · simp [hfst]
        · rw [← Except.ok.inj hcons]
          simp [hflat]
        · rw [← Except.ok.inj hcons]
          simp [hsnd]

theorem loop_ok {headSize : Nat} :
    ∀ (ps : List (ABI.AbiType × ABI.PyVal))
      (rs : List ((Nat × Nat) × (List Bytes × Bytes)))
      (g tp : Nat) (preH preTW : List Bytes) (junk : Bytes)
      (slots : List Bytes),
      ABI.ChainDec headSize tp ps rs →
      slots = preH ++ (rs.map (fun r => r.2.1)).flatten ++ preTW ++
        ABI.chunksOf 32 ((rs.map (fun r => r.2.2)).flatten ++ junk) →
      preH.length + ((rs.map (fun r => r.2.1)).flatten).length = headSize →
      preTW.length = tp →
      (∀ w ∈ preTW, w.length = 32) →
      32 ∣ junk.length →
      ((rs.map (fun r => r.2.2)).flatten).length + junk.length + 64 ≤ 32 * g →
      ABI.decodeLoop (ABI.decodeSingleF g) slots headSize
        (ps.map Prod.fst) preH.length = .ok (ps.map Prod.snd)
  | [], [], g, tp, preH, preTW, junk, slots, hchain, hslots, hpre, htw, htw32,
      hjdvd, hfuel => by
      simp only [List.map_nil, List.flatten_nil, List.length_nil] at hpre
      simp only [List.map_nil, ABI.decodeLoop]
      rw [if_neg (by omega)]
  | [], _ :: _, _, _, _, _, _, _, hchain, _, _, _, _, _, _ => by cases hchain
  | _ :: _, [], _, _, _, _, _, _, hchain, _, _, _, _, _, _ => by cases hchain
  | (t, v) :: ps, (su, (hws, tl)) :: rs, g, tp, preH, preTW, junk, slots,
      hchain, hslots, hpre, htw, htw32, hjdvd, hfuel => by
      obtain ⟨hcl, hrest⟩ := hchain
      -- dimensions of the current item
      have hdims : ∃ alv, ABI.arrayLength t = .ok alv ∧
          max 1 alv = hws.length ∧ 1 ≤ hws.length ∧ tl.length = 32 * su.2 := by
        rcases hcl with ⟨hnd, hal, hsu, htl, w, hhws, hw, hdec⟩ |
          ⟨s, n, l, ht, hv, hndt, hnds, hal, hit, hn2, hsu, htl, hwsn, hf2⟩ |
          ⟨hdyn, hal, hsu1, hhws, hofflt, htll, hsu2, hdec⟩
        · exact ⟨0, hal, by simp [hhws], by simp [hhws], by simp [htl, hsu]⟩
        · exact ⟨n, hal, by omega, by omega, by simp [htl, hsu]⟩
        · exact ⟨0, hal, by simp [hhws], by simp [hhws], htll⟩
      obtain ⟨alv, halv, hmax, hws1, htlsu⟩ := hdims
      have htldvd : 32 ∣ tl.length := ⟨su.2, htlsu⟩
      -- fuel is at least 2
      obtain _ | g' := g
      · omega
      -- facts about the remaining items
      have hw32rest : ∀ w ∈ (rs.map (fun r => r.2.1)).flatten, w.length = 32 :=
        (chain_facts ps rs _ hrest).2.1
      have htl32 : 32 ∣ ((rs.map (fun r => r.2.2)).flatten).length :=
        ⟨((rs.map Prod.fst).map Prod.snd).sum, (chain_facts ps rs _ hrest).2.2.2.1⟩
      have hcurlen : preH.length + hws.length
          + ((rs.map (fun r => r.2.1)).flatten).length = headSize := by
        simp only [List.map_cons, List.flatten_cons, List.length_append] at hpre
        omega
      -- per-word facts about the current head words
      have h32cur : ∀ w ∈ hws, w.length = 32 := by
        intro w hw
        rcases hcl with ⟨_, _, _, _, w', hhws, hw', _⟩ |
          ⟨s, n, l, _, _, _, _, _, _, _, _, _, _, hf2⟩ |
          ⟨_, _, _, hhws, _, _, _, _⟩
        · rw [hhws] at hw
          rcases List.mem_singleton.mp hw with rfl
          exact hw'
        · obtain ⟨e, _, hre⟩ := forall2_mem_left hf2 w hw
          exact hre.1
        · rw [hhws] at hw
          rw [List.mem_singleton.mp hw]
          exact natToBe_length 32 _
      -- chunk decomposition of the tail region
      have htlchunks := chunks_exact htldvd
      have hchsplit : ABI.chunksOf 32
          (tl ++ ((rs.map (fun r => r.2.2)).flatten ++ junk))
          = ABI.chunksOf 32 tl ++
            ABI.chunksOf 32 ((rs.map (fun r => r.2.2)).flatten ++ junk) := by
        conv_lhs => rw [← htlchunks.2.2]
        exact chunks_words (fun w hw => htlchunks.1 w hw) _
      -- the loop guard holds
      have hguard : preH.length < headSize := by omega
      -- the recursive call, shared by all three clauses
      have hrec : ABI.decodeLoop (ABI.decodeSingleF (g' + 1)) slots headSize
          (ps.map Prod.fst) (preH.length + hws.length) = .ok (ps.map Prod.snd) := by
        have hind := loop_ok ps rs (g' + 1) (tp + su.2) (preH ++ hws)
          (preTW ++ ABI.chunksOf 32 tl) junk slots hrest ?_ ?_ ?_ ?_ hjdvd ?_
        · rwa [List.length_append] at hind
        · rw [hslots]
          simp only [List.map_cons, List.flatten_cons, List.append_assoc,
            hchsplit]
        · simp only [List.length_append]
          omega
        · simp only [List.length_append, htw, htlchunks.2.1, htlsu]
          omega
        · intro w hw
          rcases List.mem_append.mp hw with h1 | h2
          · exact htw32 w h1
          · exact htlchunks.1 w h2
        · simp only [List.map_cons, List.flatten_cons, List.length_append]
            at hfuel
          omega
      -- unfold one loop iteration
      simp only [List.map_cons, ABI.decodeLoop]
      rw [if_pos hguard, halv, okBind]
      -- case split on the clause of the current item
      rcases hcl with ⟨hnd, hal, hsu, htl, w, hhws, hw, hdec⟩ |
        ⟨s, n, l, ht, hv, hndt, hnds, hal, hit, hn2, hsu, htl, hwsn, hf2⟩ |
        ⟨hdyn, hal, hsu1, hhws, hofflt, htll, hsu2, hdec⟩
      · -- static scalar
        have halv0 : alv = 0 := by
          rw [halv] at hal
          exact Except.ok.inj hal
        subst halv0
        subst hhws
        have hitems : ABI.decodeItems (ABI.decodeSingleF (g' + 1)) slots t
            preH.length 1 = .ok [v] := by
          have hws' : slots = preH ++ [w] ++
              ((rs.map (fun r => r.2.1)).flatten ++ preTW ++
                ABI.chunksOf 32 ((((su, ([w], tl)) :: rs).map
                  (fun r => r.2.2)).flatten ++ junk)) := by
            rw [hslots]
            simp only [List.map_cons, List.flatten_cons, List.append_assoc,
              List.cons_append, List.nil_append]
          have hiw := decodeItems_words hnd [w] [v] preH
            ((rs.map (fun r => r.2.1)).flatten ++ preTW ++
              ABI.chunksOf 32 ((((su, ([w], tl)) :: rs).map
                (fun r => r.2.2)).flatten ++ junk))
            (List.Forall₂.cons (hdec g') List.Forall₂.nil)
          rw [← hws'] at hiw
          exact hiw
        simp only [show max 1 0 = 1 from rfl, if_true]
        rw [hitems, okBind]
        simp only [List.length_cons, List.length_nil] at hrec
        rw [hrec, okBind, if_neg (by simp)]
        simp
      · -- fixed array of static scalars
        have halvn : alv = n := by
          rw [halv] at hal
          exact Except.ok.inj hal
        subst halvn
        have hmaxn : max 1 alv = alv := by omega
        have hitems : ABI.decodeItems (ABI.decodeSingleF (g' + 1)) slots s
            preH.length alv = .ok l := by
          have hws' : slots = preH ++ hws ++
              (((rs.map (fun r => r.2.1)).flatten) ++ preTW ++
                ABI.chunksOf 32 ((((su, (hws, tl)) :: rs).map
                  (fun r => r.2.2)).flatten ++ junk)) := by
            rw [hslots]
            simp only [List.map_cons, List.flatten_cons, List.append_assoc]
          have hf2' : List.Forall₂
              (fun w e => ABI.decodeSingleF (g' + 1) s w = .ok e) hws l :=
            hf2.imp (fun _ _ h => h.2 g')
          have hiw := decodeItems_words hnds hws l preH
            (((rs.map (fun r => r.2.1)).flatten) ++ preTW ++
              ABI.chunksOf 32 ((((su, (hws, tl)) :: rs).map
                (fun r => r.2.2)).flatten ++ junk)) hf2'
          rw [← hws', hwsn] at hiw
          exact hiw
        rw [hmaxn, if_neg (by omega), hit, hitems, okBind]
        rw [show preH.length + alv = preH.length + hws.length from by omega]
        rw [hrec, okBind, if_pos (by omega)]
        rw [hv]
        simp
      · -- dynamic item: offset head word, tail decoded against the rest
        have halv0 : alv = 0 := by
          rw [halv] at hal
          exact Except.ok.inj hal
        subst halv0
        have hoffw : (natToBe 32 ((tp + headSize) * 32)).length = 32 :=
          natToBe_length 32 _
        have hdropflat : ((slots.drop (tp + headSize)).flatten) =
            tl ++ ((rs.map (fun r => r.2.2)).flatten ++ junk) := by
          have hblock : slots = (preH ++ hws ++ (rs.map (fun r => r.2.1)).flatten
              ++ preTW) ++ ABI.chunksOf 32
                ((tl ++ (rs.map (fun r => r.2.2)).flatten) ++ junk) := by
            rw [hslots]
            simp only [List.map_cons, List.flatten_cons, List.append_assoc]
          have hblen : (preH ++ hws ++ (rs.map (fun r => r.2.1)).flatten
              ++ preTW).length = tp + headSize := by
            simp only [List.length_append]
            omega
          rw [hblock, ← hblen, List.drop_left, flatten_chunksOf,
            List.append_assoc]
        have hitems : ABI.decodeItems (ABI.decodeSingleF (g' + 1)) slots t
            preH.length 1 = .ok [v] := by
          have hform : slots = preH ++ natToBe 32 ((tp + headSize) * 32) ::
              ((rs.map (fun r => r.2.1)).flatten ++ preTW ++
                ABI.chunksOf 32 ((((su, (hws, tl)) :: rs).map
                  (fun r => r.2.2)).flatten ++ junk)) := by
            rw [hslots, hhws]
            simp only [List.map_cons, List.flatten_cons, List.append_assoc,
              List.cons_append, List.nil_append]
          have hsl : ABI.slotAt slots preH.length
              = .ok (natToBe 32 ((tp + headSize) * 32)) := by
            rw [hform]
            exact slotAt_at preH _ _
          simp only [ABI.decodeItems, hsl, okBind]
          rw [if_neg (by simp [hdyn])]
          simp only [ABI.decodeUintW, hoffw, if_pos, okBind]
          rw [beToNat_natToBe 32 _ (by rw [pow256_32]; exact hofflt)]
          rw [Nat.mul_div_cancel _ (by norm_num : (0:Nat) < 32)]
          rw [hdropflat]
          rw [hdec ((rs.map (fun r => r.2.2)).flatten ++ junk) (g' + 1)
            (by rw [List.length_append]; exact Nat.dvd_add htl32 hjdvd)
            (by
              simp only [List.map_cons, List.flatten_cons, List.length_append]
                at hfuel
              rw [List.length_append]
              omega), okBind]
        simp only [show max 1 0 = 1 from rfl, if_true]
        rw [hitems, okBind]
        simp only [List.length_cons, List.length_nil] at hrec
        rw [show preH.length + 1 = preH.length + hws.length from by
          rw [hhws]; rfl]
        rw [hrec, okBind, if_neg (by simp)]
        simp

theorem slotsF_mono : ∀ (t : ABI.AbiType) {f f' : Nat} {v : ABI.PyVal}
    {su : Nat × Nat}, f ≤ f' → ABI.slotsF f t v = .ok su →
    ABI.slotsF f' t v = .ok su := by
  intro t
  induction t with
  | dynArr t' ih =>
      intro f f' v su hle h
      match f, f', hle with
      | 0, _, _ => exact absurd h (by simp [ABI.slotsF])
      | k + 1, k' + 1, hle => ?_
      simp only [ABI.slotsF] at h ⊢
      obtain ⟨l, hl, h2⟩ := bindOkInv h
      obtain ⟨us, hus, h3⟩ := bindOkInv h2
      rw [hl, okBind]
      have hf2 := mapME_ok_forall2 hus
      have hf2' : List.Forall₂ (fun a b => ABI.slotsF k' t' a = .ok b) l us :=
        hf2.imp (fun _ _ hab => ih (by omega) hab)
      rw [mapME_of_forall2 hf2', okBind]
      exact h3
  | fixArr t' n ih =>
      intro f f' v su hle h
      match f, f', hle with
      | 0, _, _ => exact absurd h (by simp [ABI.slotsF])
      | k + 1, k' + 1, hle => ?_
      simp only [ABI.slotsF] at h ⊢
      obtain ⟨al, hal, h2⟩ := bindOkInv h
      obtain ⟨l, hl, h3⟩ := bindOkInv h2
      rw [hal, okBind, hl, okBind]
      by_cases hlen : l.length ≠ al
      · rw [if_pos hlen] at h3
        simp at h3
      · rw [if_neg hlen] at h3 ⊢
        obtain ⟨us, hus, h4⟩ := bindOkInv h3
        have hf2 := mapME_ok_forall2 hus
        have hf2' : List.Forall₂ (fun a b => ABI.slotsF k' t' a = .ok b) l us :=
          hf2.imp (fun _ _ hab => ih (by omega) hab)
        rw [mapME_of_forall2 hf2', okBind]
        exact h4
  | uint n =>
      intro f f' v su hle h
      match f, f', hle with
      | 0, _, _ => exact absurd h (by simp [ABI.slotsF])
      | k + 1, k' + 1, hle => exact h
  | sint n =>
      intro f f' v su hle h
      match f, f', hle with
      | 0, _, _ => exact absurd h (by simp [ABI.slotsF])
      | k + 1, k' + 1, hle => exact h
  | bool =>
      intro f f' v su hle h
      match f, f', hle with
      | 0, _, _ => exact absurd h (by simp [ABI.slotsF])
      | k + 1, k' + 1, hle => exact h
  | address =>
      intro f f' v su hle h
      match f, f', hle with
      | 0, _, _ => exact absurd h (by simp [ABI.slotsF])
      | k + 1, k' + 1, hle => exact h
  | fixedBytes k0 =>
      intro f f' v su hle h
      match f, f', hle with
      | 0, _, _ => exact absurd h (by simp [ABI.slotsF])
      | k + 1, k' + 1, hle => exact h
  | bytes =>
      intro f f' v su hle h
      match f, f', hle with
      | 0, _, _ => exact absurd h (by simp [ABI.slotsF])
      | k + 1, k' + 1, hle => exact h
  | str =>
      intro f f' v su hle h
      match f, f', hle with
      | 0, _, _ => exact absurd h (by simp [ABI.slotsF])
      | k + 1, k' + 1, hle => exact h

theorem forall2_itemrt :
    ∀ (pairs : List (ABI.AbiType × ABI.PyVal)) (sus : List (Nat × Nat))
      (raws : List (Bytes × Bytes)) (f : Nat),
      (∀ t v f' su hd tl, (t, v) ∈ pairs →
        ABI.slotsF f' t v = .ok su → ABI.encodeF f' t v = .ok (hd, tl) →
        ABI.ItemRT t v su hd tl) →
      ABI.mapME (fun p => ABI.slotsF f p.1 p.2) pairs = .ok sus →
      ABI.mapME (fun p => ABI.encodeF f p.1 p.2) pairs = .ok raws →
      List.Forall₂ (fun (p : ABI.AbiType × ABI.PyVal)
        (sr : (Nat × Nat) × (Bytes × Bytes)) =>
        ABI.ItemRT p.1 p.2 sr.1 sr.2.1 sr.2.2) pairs (sus.zip raws)
  | [], sus, raws, f, _, hs, hr => by
      simp only [ABI.mapME] at hs hr
      rw [← Except.ok.inj hs, ← Except.ok.inj hr]
      exact List.Forall₂.nil
  | p :: ps, sus, raws, f, hmem, hs, hr => by
      simp only [ABI.mapME] at hs hr
      obtain ⟨su, hsu, hs2⟩ := bindOkInv hs
      obtain ⟨sus', hsus', hs3⟩ := bindOkInv hs2
      obtain ⟨raw, hraw, hr2⟩ := bindOkInv hr
      obtain ⟨raws', hraws', hr3⟩ := bindOkInv hr2
      rw [← Except.ok.inj hs3, ← Except.ok.inj hr3, List.zip_cons_cons]
      refine List.Forall₂.cons ?_
        (forall2_itemrt ps sus' raws' f ?_ hsus' hraws')
      · exact hmem p.1 p.2 f su raw.1 raw.2 (by simp) hsu (by simpa using hraw)
      · intro t v f' su' hd tl hm hs' he'
        exact hmem t v f' su' hd tl (List.mem_cons_of_mem p hm) hs' he'

theorem hw_flatten_len (rs : List ((Nat × Nat) × (List Bytes × Bytes))) :
    ((rs.map (fun r => r.2.1)).flatten).length
      = (rs.map (fun r => r.2.1.length)).sum := by
  induction rs with
  | nil => rfl
  | cons r rs ih =>
      simp only [List.map_cons, List.flatten_cons, List.length_append,
        List.sum_cons, ih]

theorem many_rt {f : Nat} {ts : List ABI.AbiType} {vs : List ABI.PyVal}
    {blob : Bytes}
    (hlen : ts.length = vs.length)
    (henc : ABI.encodeManyF (f + 1) ts vs = .ok blob)
    (hitem : ∀ t v f' su hd tl, (t, v) ∈ ts.zip vs →
      ABI.slotsF f' t v = .ok su → ABI.encodeF f' t v = .ok (hd, tl) →
      ABI.ItemRT t v su hd tl) :
    ∃ sus, ABI.mapME (fun p => ABI.slotsF f p.1 p.2) (ts.zip vs) = .ok sus ∧
      blob.length = 32 * ((sus.map Prod.fst).sum + (sus.map Prod.snd).sum) ∧
      ∀ junk g, 32 ∣ junk.length →
        blob.length + junk.length + 64 ≤ 32 * (g + 1) →
        ABI.decodeManyDF (g + 1) ts (blob ++ junk) = .ok vs := by
  simp only [ABI.encodeManyF] at henc
  obtain ⟨sus, hsus, h2⟩ := bindOkInv henc
  obtain ⟨raws, hraws, h3⟩ := bindOkInv h2
  obtain ⟨items, hfix, h4⟩ := bindOkInv h3
  have hblob : blob = (items.map Prod.fst).flatten ++ (items.map Prod.snd).flatten :=
    (Except.ok.inj h4).symm
  -- lengths of the three parallel lists
  have hlsus : (ts.zip vs).length = sus.length :=
    (mapME_ok_forall2 hsus).length_eq
  have hlraws : (ts.zip vs).length = raws.length :=
    (mapME_ok_forall2 hraws).length_eq
  -- per-item round-trip contracts
  have hf2 := forall2_itemrt (ts.zip vs) sus raws f hitem hsus hraws
  -- the substituted chain
  obtain ⟨rs, hchain, hfst, hflat, hsnd⟩ :=
    fixHeads_chain (ts.zip vs) sus raws items 0 (by omega) (by omega) hf2 hfix
  obtain ⟨hclen, hw32, hsum1, hsum2, als, hals, hhead⟩ :=
    chain_facts (ts.zip vs) rs 0 hchain
  -- identification of sums with `sus`
  have hsums : ((rs.map Prod.fst).map Prod.fst).sum = (sus.map Prod.fst).sum := by
    rw [hfst]
  have hsums2 : ((rs.map Prod.fst).map Prod.snd).sum = (sus.map Prod.snd).sum := by
    rw [hfst]
  -- head words and their flattening
  have hHWlen : ((rs.map (fun r => r.2.1)).flatten).length
      = (sus.map Prod.fst).sum := by
    rw [hw_flatten_len, hsum1, hsums]
  have hheads : ((rs.map (fun r => r.2.1)).flatten).flatten.length
      = 32 * (sus.map Prod.fst).sum := by
    rw [words_flatten_length hw32, hHWlen]
  have htails : ((rs.map (fun r => r.2.2)).flatten).length
      = 32 * (sus.map Prod.snd).sum := by
    rw [hsum2, hsums2]
  have htailseq : (items.map Prod.snd).flatten = (rs.map (fun r => r.2.2)).flatten := by
    rw [hsnd]
  have hbloblen : blob.length
      = 32 * ((sus.map Prod.fst).sum + (sus.map Prod.snd).sum) := by
    rw [hblob, List.length_append, ← hflat, htailseq, hheads, htails]
    ring
  refine ⟨sus, hsus, hbloblen, ?_⟩
  intro junk g hjdvd hbound
  -- the decoder recomputes the same head size
  have hzipl : (ts.zip vs).length = ts.length := by
    rw [List.length_zip, hlen, Nat.min_self]
  have hzts : (ts.zip vs).map Prod.fst = ts :=
    List.map_fst_zip ts vs (by omega)
  have hzvs : (ts.zip vs).map Prod.snd = vs :=
    List.map_snd_zip ts vs (by omega)
  have hheadSize : ts.length + (als.map (fun a => a - 1)).sum
      = (sus.map Prod.fst).sum := by
    rw [← hzipl, hhead, hsums]
  -- unfold the decoder
  simp only [ABI.decodeManyDF]
  rw [if_neg (by
    simp only [List.length_append, hbloblen]
    obtain ⟨j, hj⟩ := hjdvd
    omega)]
  rw [← hzts, hals, okBind, hzts]
  -- the slot list decomposes into head words and the chunked tail region
  have hslots : ABI.chunksOf 32 ((blob ++ junk))
      = [] ++ (rs.map (fun r => r.2.1)).flatten ++ [] ++
        ABI.chunksOf 32 ((rs.map (fun r => r.2.2)).flatten ++ junk) := by
    rw [hblob, ← hflat, htailseq]
    simp only [List.nil_append, List.append_nil, List.append_assoc]
    exact chunks_words hw32 _
  -- now apply the loop invariant
  by_cases hts : ts.zip vs = []
  · -- no items at all
    have hts0 : ts = [] := by
      cases ts with
      | nil => rfl
      | cons a l =>
          cases vs with
          | nil => simp at hlen
          | cons b m => simp [List.zip_cons_cons] at hts
    subst hts0
    have hvs0 : vs = [] := by
      cases vs with
      | nil => rfl
      | cons b m => simp at hlen
    subst hvs0
    have hsus0 : sus = [] := by
      simpa using hlsus.symm
    have hrs0 : rs = [] := by
      cases rs with
      | nil => rfl
      | cons r rs' => cases hchain
    have hals0 : als = [] := by
      have h0 := hals
      simp only [List.zip_nil_left, List.map_nil, ABI.mapME] at h0
      exact (Except.ok.inj h0).symm
    subst hals0
    simp only [ABI.decodeLoop, List.length_nil, List.map_nil, List.sum_nil]
    rw [if_neg (by omega)]
  · -- at least one item: the head size is positive
    have hpos : 1 ≤ (sus.map Prod.fst).sum := by
      cases hzip : ts.zip vs with
      | nil => exact absurd hzip hts
      | cons p ps' =>
          rw [hzip] at hchain
          cases hrs : rs with
          | nil => rw [hrs] at hchain; cases hchain
          | cons r rs' =>
              rw [hrs] at hchain
              obtain ⟨hcl, _⟩ := hchain
              have hr1 : 1 ≤ r.1.1 := by
                rcases hcl with ⟨_, _, hsu, _⟩ |
                  ⟨s, n, l, _, _, _, _, _, _, hn2, hsu, _⟩ |
                  ⟨_, _, hsu1, _⟩
                · rw [show r.1 = ((1 : Nat), (0 : Nat)) from hsu]
                · rw [show r.1 = (n, (0 : Nat)) from hsu]
                  omega
                · omega
              have : ((rs.map Prod.fst).map Prod.fst).sum
                  = (sus.map Prod.fst).sum := hsums
              rw [hrs] at this
              simp only [List.map_cons, List.sum_cons] at this
              omega
    have hloop := loop_ok (ts.zip vs) rs g 0 [] [] junk
      (ABI.chunksOf 32 (blob ++ junk)) hchain hslots
      (by simp [hHWlen, hheadSize]) rfl (by simp) hjdvd
      (by
        rw [htails]
        rw [hbloblen] at hbound
        omega)
    rw [hzts, hzvs] at hloop
    simp only [List.length_nil] at hloop
    rw [show ts.length + (als.map (fun a => a - 1)).sum
      = (sus.map Prod.fst).sum from hheadSize]
    exact hloop

theorem forall2_fun_unique {α β : Type} {R : α → β → Prop}
    (hfun : ∀ a b b', R a b → R a b' → b = b') :
    ∀ {l : List α} {m m' : List β},
      List.Forall₂ R l m → List.Forall₂ R l m' → m = m'
  | [], _, _, .nil, .nil => rfl
  | a :: l, _, _, .cons h1 h1s, .cons h2 h2s => by
      rw [hfun a _ _ h1 h2, forall2_fun_unique hfun h1s h2s]

theorem zip_replicate_forall2 {α β : Type} {c : α} {P : α × β → γ → Prop} :
    ∀ {l : List β} {m : List γ},
      List.Forall₂ P ((List.replicate l.length c).zip l) m →
      List.Forall₂ (fun b g => P (c, b) g) l m
  | [], m, h => by
      simpa using h
  | b :: l, m, h => by
      simp only [List.length_cons, List.replicate_succ, List.zip_cons_cons]
        at h
      cases h with
      | cons h1 hrest =>
          exact List.Forall₂.cons h1 (zip_replicate_forall2 hrest)

theorem scalar_slots_sums {t' : ABI.AbiType} (hs : ABI.isScalar t' = true)
    {f : Nat} :
    ∀ {l : List ABI.PyVal} {us : List (Nat × Nat)},
      List.Forall₂ (fun a b => ABI.slotsF (f + 1) t' a = .ok b) l us →
      (us.map Prod.fst).sum = us.length ∧ (us.map Prod.snd).sum = 0 ∧
        us.length = l.length
  | [], _, .nil => ⟨rfl, rfl, rfl⟩
  | a :: l, _, .cons hab hrest => by
      have hb : _ = ((1 : Nat), (0 : Nat)) :=
        Except.ok.inj ((slotsF_scalar hs f a).symm.trans hab).symm
      obtain ⟨h1, h2, h3⟩ := scalar_slots_sums hs hrest
      simp only [List.map_cons, List.sum_cons, List.length_cons, hb, h1, h2, h3]
      refine ⟨by omega, trivial, trivial⟩

theorem parts_rt {t' : ABI.AbiType} (hsc : ABI.isScalar t' = true) {f'' : Nat}
    {P : ABI.PyVal → Bytes → Prop}
    (hP : ∀ a p, P a p →
      ∃ hd tl, ABI.encodeF (f'' + 1) t' a = .ok (hd, tl) ∧ p = hd) :
    ∀ {l : List ABI.PyVal} {parts : List Bytes},
      (∀ e ∈ l, ABI.WT t' e) → List.Forall₂ P l parts →
      List.Forall₂ (fun w e => w.length = 32 ∧
        ∀ g, ABI.decodeSingleF (g + 1) t' w = .ok e) parts l
  | [], _, _, .nil => .nil
  | a :: l, _, hwt, .cons hab hrest => by
      obtain ⟨hd1, tl1, he1, hp⟩ := hP a _ hab
      obtain ⟨_, hlen, hdec⟩ := scalar_rt hsc (hwt a (by simp)) he1
      exact List.Forall₂.cons (hp ▸ ⟨hlen, hdec⟩)
        (parts_rt hsc hP (fun e he => hwt e (by simp [he])) hrest)

theorem item_rt {t : ABI.AbiType} {v : ABI.PyVal} (hwt : ABI.WT t v) :
    ∀ {f : Nat} {su : Nat × Nat} {hd tl : Bytes},
      ABI.slotsF (f + 1) t v = .ok su →
      ABI.encodeF (f + 1) t v = .ok (hd, tl) →
      ABI.ItemRT t v su hd tl := by
  induction hwt with
  | wtUint n i =>
      intro f su hd tl hsl he
      have hs : ABI.isScalar (.uint n) = true := rfl
      rw [slotsF_scalar hs f _] at hsl
      obtain ⟨htl, hlen, hdec⟩ := scalar_rt hs (ABI.WT.wtUint n i) he
      exact Or.inl ⟨scalar_not_dynamic hs, rfl, (Except.ok.inj hsl).symm,
        htl, hlen, hdec⟩
  | wtInt n i =>
      intro f su hd tl hsl he
      have hs : ABI.isScalar (.sint n) = true := rfl
      rw [slotsF_scalar hs f _] at hsl
      obtain ⟨htl, hlen, hdec⟩ := scalar_rt hs (ABI.WT.wtInt n i) he
      exact Or.inl ⟨scalar_not_dynamic hs, rfl, (Except.ok.inj hsl).symm,
        htl, hlen, hdec⟩
  | wtBool b =>
      intro f su hd tl hsl he
      have hs : ABI.isScalar .bool = true := rfl
      rw [slotsF_scalar hs f _] at hsl
      obtain ⟨htl, hlen, hdec⟩ := scalar_rt hs (ABI.WT.wtBool b) he
      exact Or.inl ⟨scalar_not_dynamic hs, rfl, (Except.ok.inj hsl).symm,
        htl, hlen, hdec⟩
  | wtAddress h0 hl20 hb =>
      intro f su hd tl hsl he
      have hs : ABI.isScalar .address = true := rfl
      rw [slotsF_scalar hs f _] at hsl
      obtain ⟨htl, hlen, hdec⟩ := scalar_rt hs (ABI.WT.wtAddress h0 hl20 hb) he
      exact Or.inl ⟨scalar_not_dynamic hs, rfl, (Except.ok.inj hsl).symm,
        htl, hlen, hdec⟩
  | wtFixedBytes k b hk hblen =>
      intro f su hd tl hsl he
      have hs : ABI.isScalar (.fixedBytes k) = true := rfl
      rw [slotsF_scalar hs f _] at hsl
      obtain ⟨htl, hlen, hdec⟩ := scalar_rt hs (ABI.WT.wtFixedBytes k b hk hblen) he
      exact Or.inl ⟨scalar_not_dynamic hs, rfl, (Except.ok.inj hsl).symm,
        htl, hlen, hdec⟩
  | wtBytes b =>
      intro f su hd tl hsl he
      simp only [ABI.slotsF] at hsl
      obtain ⟨e, he1, h2⟩ := bindOkInv hsl
      simp only [ABI.encodeF] at he
      obtain ⟨e2, he2, h3⟩ := bindOkInv he
      have hee : e2 = e := Except.ok.inj (he2.symm.trans he1)
      subst hee
      obtain ⟨h4, h5⟩ := Prod.mk.inj (Except.ok.inj h3)
      subst h4; subst h5
      obtain ⟨hsu1, hsu2⟩ := Prod.mk.inj (Except.ok.inj h2)
      obtain ⟨heq, hblt⟩ := encodeDynBytes_inv he1
      have helen : e2.length = 32 + (b.length + (32 - b.length % 32)) := by
        rw [heq]
        simp [natToBe_length]
      refine Or.inr (Or.inr ⟨rfl, rfl, hsu1.symm, rfl, ?_, ?_, ?_⟩)
      · rw [← hsu2]
        omega
      · rw [← hsu2]
        omega
      · intro junk g hjd hbound
        obtain _ | g' := g
        · omega
        simp only [ABI.decodeSingleF]
        rw [heq, decodeDynBytes_of_enc hblt, okBind]
  | wtStr s =>
      intro f su hd tl hsl he
      simp only [ABI.slotsF, ABI.encodeStrV] at hsl
      obtain ⟨e, he1, h2⟩ := bindOkInv hsl
      simp only [ABI.encodeF, ABI.encodeStrV] at he
      obtain ⟨e2, he2, h3⟩ := bindOkInv he
      have hee : e2 = e := Except.ok.inj (he2.symm.trans he1)
      subst hee
      obtain ⟨h4, h5⟩ := Prod.mk.inj (Except.ok.inj h3)
      subst h4; subst h5
      obtain ⟨hsu1, hsu2⟩ := Prod.mk.inj (Except.ok.inj h2)
      obtain ⟨heq, hblt⟩ := encodeDynBytes_inv he1
      have helen : e2.length = 32 + (s.length + (32 - s.length % 32)) := by
        rw [heq]
        simp [natToBe_length]
      refine Or.inr (Or.inr ⟨rfl, rfl, hsu1.symm, rfl, ?_, ?_, ?_⟩)
      · rw [← hsu2]
        omega
      · rw [← hsu2]
        omega
      · intro junk g hjd hbound
        obtain _ | g' := g
        · omega
        simp only [ABI.decodeSingleF]
        rw [heq, decodeDynBytes_of_enc hblt, okBind]
  | wtDynArr t' l hmem ih =>
      intro f su hd tl hsl he
      simp only [ABI.slotsF, ABI.asVList, okBind] at hsl
      obtain ⟨us, hus, h2⟩ := bindOkInv hsl
      simp only [ABI.encodeF, ABI.asVList, okBind] at he
      obtain ⟨lw, hlw, h3⟩ := bindOkInv he
      obtain ⟨body, hbody, h4⟩ := bindOkInv h3
      obtain ⟨h5, h6⟩ := Prod.mk.inj (Except.ok.inj h4)
      subst h5; subst h6
      obtain ⟨hsu1, hsu2⟩ := Prod.mk.inj (Except.ok.inj h2)
      -- the encoder burns one fuel level entering the element list
      obtain _ | f'' := f
      · simp only [ABI.encodeManyF] at hbody
        cases hbody
      -- the body satisfies the tuple-level contract
      have hitem' : ∀ t0 v0 f' su0 hd0 tl0,
          (t0, v0) ∈ (List.replicate l.length t').zip l →
          ABI.slotsF f' t0 v0 = .ok su0 →
          ABI.encodeF f' t0 v0 = .ok (hd0, tl0) →
          ABI.ItemRT t0 v0 su0 hd0 tl0 := by
        intro t0 v0 f' su0 hd0 tl0 hm hs' he'
        obtain ⟨hm1, hm2⟩ := List.of_mem_zip hm
        have ht0 : t0 = t' := List.eq_of_mem_replicate hm1
        subst ht0
        obtain _ | f2 := f'
        · simp only [ABI.slotsF] at hs'
          cases hs'
        · exact ih v0 hm2 hs' he'
      obtain ⟨sus, hsus, hblen, hdecm⟩ := many_rt (by simp) hbody hitem'
      -- the two slot computations agree
      have hus' : List.Forall₂ (fun a b => ABI.slotsF (f'' + 1) t' a = .ok b)
          l us :=
        (mapME_ok_forall2 hus).imp (fun _ _ hab => hab)
      have hsus' : List.Forall₂ (fun a b => ABI.slotsF (f'' + 1) t' a = .ok b)
          l sus := by
        have hz := zip_replicate_forall2 (mapME_ok_forall2 hsus)
        exact hz.imp (fun _ _ hab => slotsF_mono t' (by omega) hab)
      have hussus : us = sus :=
        forall2_fun_unique
          (fun a b b' h1 h2 => Except.ok.inj (h1.symm.trans h2)) hus' hsus'
      subst hussus
      -- the length word
      obtain ⟨hlw0, hlwlt, hlweq⟩ := encodeUintV_int_inv hlw
      have hlwN : lw = natToBe 32 l.length := by
        rw [hlweq, Int.toNat_natCast]
      have hlwlen : lw.length = 32 := by
        rw [hlwN]; exact natToBe_length 32 _
      have hlltN : l.length < 2 ^ 256 := by
        have : ((l.length : Int)).toNat = l.length := Int.toNat_natCast _
        omega
      refine Or.inr (Or.inr ⟨rfl, rfl, hsu1.symm, rfl, ?_, ?_, ?_⟩)
      · rw [← hsu2]
        simp only [List.length_append, hlwlen, hblen]
        ring
      · omega
      · intro junk g hjd hbound
        obtain _ | g' := g
        · omega
        simp only [ABI.decodeSingleF]
        rw [List.append_assoc, List.take_left' hlwlen, List.drop_left' hlwlen]
        simp only [ABI.decodeUintW, hlwlen, if_pos, okBind]
        rw [hlwN, beToNat_natToBe 32 _ (by rw [pow256_32]; omega)]
        obtain _ | g'' := g'
        · simp only [List.length_append, hlwlen] at hbound
          omega
        rw [hdecm junk g'' hjd (by
          simp only [List.length_append, hlwlen] at hbound
          omega), okBind]
  | wtFixArr t' n l hsc hmem ih =>
      intro f su hd tl hsl he
      simp only [ABI.slotsF, ABI.asVList, ABI.arrayLength, okBind] at hsl
      by_cases hn1 : n = 1
      · rw [if_pos hn1] at hsl
        simp at hsl
      rw [if_neg hn1, okBind] at hsl
      by_cases hll : l.length ≠ n
      · rw [if_pos hll] at hsl
        simp at hsl
      rw [if_neg hll] at hsl
      push_neg at hll
      obtain ⟨us, hus, h2⟩ := bindOkInv hsl
      -- an empty usage list raises IndexError, so the list is non-empty
      have hlne : l ≠ [] := by
        intro hc
        subst hc
        simp only [ABI.mapME] at hus
        rw [← Except.ok.inj hus] at h2
        simp at h2
      have husne : us ≠ [] := by
        intro hc
        rw [hc] at h2
        simp at h2
      have h2' : (Except.ok ((us.map Prod.fst).sum, (us.map Prod.snd).sum)
          : Except Err (Nat × Nat)) = .ok su := by
        cases us with
        | nil => exact absurd rfl husne
        | cons u us' => exact h2
      obtain ⟨hsu1, hsu2⟩ := Prod.mk.inj (Except.ok.inj h2')
      -- fuel must be positive to process a non-empty list
      obtain _ | f'' := f
      · cases l with
        | nil => exact absurd rfl hlne
        | cons a l' =>
            simp only [ABI.mapME, ABI.slotsF, errBind] at hus
            cases hus
      simp only [ABI.encodeF, ABI.asVList, okBind] at he
      obtain ⟨parts, hparts, h3⟩ := bindOkInv he
      obtain ⟨h5, h6⟩ := Prod.mk.inj (Except.ok.inj h3)
      subst h5; subst h6
      -- element slot usages are all (1, 0)
      obtain ⟨hsum1, hsum2, hlenus⟩ :=
        scalar_slots_sums hsc ((mapME_ok_forall2 hus).imp (fun _ _ h => h))
      have hn2 : 2 ≤ n := by
        have : l.length ≠ 0 := fun hc => hlne (List.eq_nil_of_length_eq_zero hc)
        omega
      -- the parts decode elementwise
      have hP : ∀ a p, (do
            let x ← ABI.encodeF (f'' + 1) t' a
            match x with
            | (h0, _) => (Except.ok h0 : Except Err Bytes)) = .ok p →
          ∃ hd0 tl0, ABI.encodeF (f'' + 1) t' a = .ok (hd0, tl0) ∧ p = hd0 := by
        intro a p hap
        obtain ⟨x, hx, h7⟩ := bindOkInv hap
        obtain ⟨hd1, tl1⟩ := x
        exact ⟨hd1, tl1, hx, (Except.ok.inj h7).symm⟩
      have hf2 := parts_rt hsc hP hmem (mapME_ok_forall2 hparts)
      refine Or.inr (Or.inl ⟨t', n, parts, l, rfl, rfl,
        fixArr_scalar_not_dynamic n hsc, scalar_not_dynamic hsc,
        by simp [ABI.arrayLength, hn1], rfl, hn2, ?_, rfl, rfl, ?_, hf2⟩)
      · have hfn : (us.map Prod.fst).sum = n := by omega
        have hsn : (us.map Prod.snd).sum = 0 := hsum2
        have hp : su = ((us.map Prod.fst).sum, (us.map Prod.snd).sum) := by
          rw [Prod.ext_iff]
          exact ⟨hsu1.symm, hsu2.symm⟩
        rw [hp, hfn, hsn]
      · have := hf2.length_eq
        omega

theorem forall2_of_zip_mem {α β : Type} {R : α → β → Prop} :
    ∀ {l : List α} {m : List β}, List.Forall₂ R l m →
      ∀ {a : α} {b : β}, (a, b) ∈ l.zip m → R a b
  | _, _, .nil, a, b, h => absurd h (List.not_mem_nil _)
  | _, _, .cons h hrest, a, b, hm => by
      rw [List.zip_cons_cons] at hm
      rcases List.mem_cons.mp hm with h1 | h2
      · obtain ⟨ha, hb⟩ := Prod.mk.inj h1
        subst ha; subst hb
        exact h
      · exact forall2_of_zip_mem hrest h2

/-- C1: tuple decoding inverts tuple encoding on the supported fragment
of well-typed canonical inputs (scalars, `bytes`, `string`, dynamic
arrays, fixed arrays of scalars): whenever `encode_many` succeeds on
such a pair, `decode_many` returns exactly the original value list.
The unrestricted claim over every ABI-legal pair is refuted by
`claim_C1_counterexample` (a fixed array of a dynamic type round-trips
to an error because `_encode_fixed_array` drops element tails). -/
theorem claim_C1 {ts : List ABI.AbiType} {vs : List ABI.PyVal} {blob : Bytes}
    (hwt : List.Forall₂ ABI.WT ts vs)
    (henc : ABI.encodeMany ts vs = .ok blob) :
    ABI.decodeMany ts blob = .ok vs := by
  have hlen := hwt.length_eq
  simp only [ABI.encodeMany] at henc
  have henc' : ABI.encodeManyF ((2 * ABI.listDepth ts + 1) + 1) ts vs
      = .ok blob := henc
  have hitem : ∀ t v f' su hd tl, (t, v) ∈ ts.zip vs →
      ABI.slotsF f' t v = .ok su → ABI.encodeF f' t v = .ok (hd, tl) →
      ABI.ItemRT t v su hd tl := by
    intro t v f' su hd tl hm hs' he'
    have hwtv : ABI.WT t v := forall2_of_zip_mem hwt hm
    obtain _ | f2 := f'
    · simp only [ABI.slotsF] at hs'
      cases hs'
    · exact item_rt hwtv hs' he'
  obtain ⟨sus, hsus, hblen, hdecm⟩ := many_rt hlen henc' hitem
  simp only [ABI.decodeMany]
  have hdec := hdecm [] (blob.length + 1) (by simp)
    (by simp only [List.length_nil]; omega)
  rw [List.append_nil] at hdec
  exact hdec

theorem claim_C1_witness :
    List.Forall₂ ABI.WT [ABI.AbiType.uint 256, ABI.AbiType.str]
        [ABI.PyVal.vInt 7, ABI.PyVal.vStr [104, 105]] ∧
    ABI.encodeMany [ABI.AbiType.uint 256, ABI.AbiType.str]
        [ABI.PyVal.vInt 7, ABI.PyVal.vStr [104, 105]]
      = .ok (natToBe 32 7 ++ (natToBe 32 64 ++ (natToBe 32 2 ++
          ([104, 105] ++ List.replicate 30 0)))) ∧
    ABI.decodeMany [ABI.AbiType.uint 256, ABI.AbiType.str]
        (natToBe 32 7 ++ (natToBe 32 64 ++ (natToBe 32 2 ++
          ([104, 105] ++ List.replicate 30 0))))
      = .ok [ABI.PyVal.vInt 7, ABI.PyVal.vStr [104, 105]] :=
  ⟨List.Forall₂.cons (ABI.WT.wtUint 256 7)
      (List.Forall₂.cons (ABI.WT.wtStr [104, 105]) List.Forall₂.nil),
    rfl,
    claim_C1
      (List.Forall₂.cons (ABI.WT.wtUint 256 7)
        (List.Forall₂.cons (ABI.WT.wtStr [104, 105]) List.Forall₂.nil))
      rfl⟩

theorem claim_C1_counterexample :
    ABI.encodeMany [ABI.AbiType.fixArr .str 2]
        [ABI.PyVal.vList [ABI.PyVal.vStr [97], ABI.PyVal.vStr [98]]]
      = .ok (natToBe 32 64) ∧
    ABI.decodeMany [ABI.AbiType.fixArr .str 2] (natToBe 32 64)
      = .error .abiEncoding :=
  ⟨rfl, rfl⟩
